import Mathlib

/-!
Verification development for the typescript-event-emitter library
(`src/EventEmitter.ts`, `src/Utils.ts`).

The TypeScript source is shallowly embedded as executable Lean
definitions:

* Strings are Lean `String`s; JavaScript `String.prototype.split`,
  `startsWith` and `endsWith` are modelled on `List Char`
  (`jsSplit`, `jsStartsWith`, `jsEndsWith`).
* JavaScript objects used as string-keyed maps (`eventNamespaces`,
  `executingListeners`) are modelled as insertion-ordered association
  lists, matching `Object.entries` iteration order for the
  non-integer-like keys the library uses.
* `uuidv4()` identifiers are modelled as fresh natural numbers drawn
  from a counter (`nextId`): the only property the code relies on is
  uniqueness.
* Listener callbacks are identified by an opaque natural number `uid`;
  the behaviour of a callback (success, or a thrown/rejected error) is
  supplied by an environment `CbEnv`.  A rejected or throwing callback
  is an `Except.error`, threaded through the dispatch code exactly
  where the source `await`s, with the source's `try`/`catch` translated
  at the same place.
* The single-threaded dispatch of one `emit` call (all listener bodies
  completing without suspension) is `emitA`; the queue-draining
  recursion of `processListener`/`dequeueNextListener` is bounded by an
  explicit `fuel` parameter (the recursion always terminates in the
  source because the queue shrinks; fuel only cuts chains deeper than
  the chosen bound, and every theorem quantifies over the fuel).
* Genuinely concurrent behaviour (overlapping emits, the concurrency
  cap, the pending queue) is modelled by a small-step transition
  relation `BStep` over task states `DState`, with suspension points of
  listener bodies as `tick` steps and the synchronous admission phase
  of `emit` as one atomic `emitStart` step, reflecting that JavaScript
  runs an async function synchronously up to its first `await`.
-/

/-- Model of JavaScript `string.split(separator)` on character lists,
primary worker with an explicit fuel (always called with
`fuel > length`, so the fuel never runs out; fuel keeps the recursion
structural so that the kernel can evaluate it). Splits at each leftmost
non-overlapping occurrence of `sep`. -/
def jsSplitF (sep : List Char) : Nat → List Char → List (List Char)
  | 0, _ => [[]]
  | _ + 1, [] => [[]]
  | fuel + 1, c :: rest =>
    if sep.isPrefixOf (c :: rest) then
      [] :: jsSplitF sep fuel (List.drop (sep.length - 1) rest)
    else
      match jsSplitF sep fuel rest with
      | [] => [[c]]
      | r :: rs => (c :: r) :: rs

/-- Model of JavaScript `string.split(separator)` on character lists.
`split('')` splits into individual characters, matching JavaScript. -/
def jsSplit (sep l : List Char) : List (List Char) :=
  if sep = [] then l.map (fun c => [c]) else jsSplitF sep (l.length + 1) l

/-- JavaScript `string.split` lifted to Lean strings. -/
def stringSplitJs (s sep : String) : List String :=
  (jsSplit sep.toList s.toList).map (fun cs => String.mk cs)

/-- Model of JavaScript `string.startsWith`. -/
def jsStartsWith (s pre : String) : Bool :=
  pre.toList.isPrefixOf s.toList

/-- Model of JavaScript `string.endsWith`. -/
def jsEndsWith (s suf : String) : Bool :=
  suf.toList.isSuffixOf s.toList

/-- Joining a list of segments with a separator (used to state what the
split decomposition means; `joinSep sep (jsSplit sep l) = l`). -/
def joinSep (sep : List Char) : List (List Char) → List Char
  | [] => []
  | [p] => p
  | p :: q :: rest => p ++ sep ++ joinSep sep (q :: rest)

/-- Translation of `parseEvent` (src/Utils.ts lines 11-16):
`const parts = event.split(separator); const namespace =
parts.length > 1 ? parts[0] : ''; const eventName =
parts[parts.length - 1];`. -/
def parseEvent (event separator : String) : String × String :=
  let parts := stringSplitJs event separator
  let nsp := if 1 < parts.length then parts.headD "" else ""
  let eventName := parts.getLastD ""
  (nsp, eventName)

/-- Translation of `getPrioritizedValue` (src/Utils.ts lines 51-55):
`if (newVal) return newVal; return defaultVal;` — note that the empty
string is falsy in JavaScript. -/
def getPrioritizedValue (defaultVal : String) (newVal : Option String) : String :=
  match newVal with
  | some v => if v = "" then defaultVal else v
  | none => defaultVal

/-- Model of JavaScript `Array.prototype.findIndex`. -/
def jsFindIndex (p : α → Bool) : List α → Option Nat
  | [] => none
  | a :: t => if p a then some 0 else (jsFindIndex p t).map (fun n => n + 1)

/-- Model of `Array.prototype.splice(i, 0, x)`: insert `x` at
position `i`. -/
def insertAt : Nat → α → List α → List α
  | 0, x, l => x :: l
  | _ + 1, x, [] => [x]
  | n + 1, x, a :: t => a :: insertAt n x t

/-- Model of `findIndex` followed by `splice(index, 1)`: remove and
return the first element satisfying `p`, together with the remaining
list (used by `dequeueNextListener`, src/EventEmitter.ts lines
213-215). -/
def extractFirstBy (p : α → Bool) : List α → Option (α × List α)
  | [] => none
  | x :: t =>
    if p x then some (x, t)
    else (extractFirstBy p t).map (fun r => (r.1, x :: r.2))

/-- Lookup in an insertion-ordered association list (model of reading a
property of a JavaScript object used as a map). -/
def alookup [BEq κ] (l : List (κ × β)) (k : κ) : Option β :=
  (l.find? (fun p => p.1 == k)).map (fun p => p.2)

/-- Update-or-append in an insertion-ordered association list (model of
assigning a property of a JavaScript object: an existing key keeps its
position, a new key is appended). -/
def aset [BEq κ] (k : κ) (v : β) : List (κ × β) → List (κ × β)
  | [] => [(k, v)]
  | (k1, v1) :: t => if k1 == k then (k, v) :: t else (k1, v1) :: aset k v t

/-- Lookup with default (model of `obj[k] || d` / `obj[k] ?? d`). -/
def lookupD [BEq κ] (l : List (κ × β)) (k : κ) (d : β) : β :=
  (alookup l k).getD d

/-- Opaque payload values passed as extra arguments to `emit`
(modelled as strings; the dispatch code never inspects them). -/
abbrev Value := String

/-- Outcome of running a user callback to completion: success, or a
synchronously thrown / asynchronously rejected error. -/
inductive CbResult where
  | ok
  | err (msg : String)
deriving DecidableEq

/-- Behaviour environment: what the user callback `uid` does when
invoked with a given argument list. -/
abbrev CbEnv := Nat → List Value → CbResult

/-- Translation of the `EventInfo` interface (src/Interfaces.ts):
the separator resolved at registration time and the raw event string. -/
structure EventInfo where
  separator : String
  event : String
deriving DecidableEq

/-- The `listener` field of a listener record: either the user callback
itself, or the closure produced by the `throttle`/`debounce` wrapper at
registration time (src/EventEmitter.ts lines 58-63).  The wrapper
captures the parsed event name and the delay; its mutable closure state
(`lastCallTime` / the pending timer) lives in the emitter state, keyed
by the record id, since each registration creates one closure. -/
inductive StoredListener where
  | plain (uid : Nat)
  | throttled (uid : Nat) (regEventName : String) (delay : Int)
  | debounced (uid : Nat) (regEventName : String) (delay : Int)
deriving DecidableEq

/-- Translation of the `EventListener` interface (src/Interfaces.ts):
one registered listener record.  `concurrency = none` models the
default `Infinity`. -/
structure EventListenerRec where
  listener : StoredListener
  priority : Int
  eventInfo : EventInfo
  concurrency : Option Nat
  id : Nat
deriving DecidableEq

/-- One value of the `EventNamespace` map: the listener bucket plus the
bucket-level `throttled` flag (src/Interfaces.ts lines 29-34). -/
structure Bucket where
  listeners : List EventListenerRec
  throttled : Bool
deriving DecidableEq

/-- Event-name → bucket map of one namespace, in insertion order. -/
abbrev EventNamespace := List (String × Bucket)

/-- The `eventNamespaces` registry: namespace → event-name → bucket. -/
abbrev Namespaces := List (String × EventNamespace)

/-- Entry of `listenerQueue` (src/EventEmitter.ts lines 13-20). -/
structure QueueEntry where
  listener : StoredListener
  id : Nat
  concurrency : Option Nat
  isThrottled : Bool
  eventName : String
  args : List Value
deriving DecidableEq

/-- The default separator `'.'` (src/Constants.ts, re-exported by
src/index.ts; the pre-2.0 source inlines `event.split('.')`). -/
def defaultSeparator : String := "."

/-- The reserved wildcard `'*'` (src/Constants.ts; the pre-2.0 source
inlines `wildCard = '*'`). -/
def defaultWildCard : String := "*"

/-- The private `wildCardNamespace = ''` field
(src/EventEmitter.ts line 10). -/
def wildCardNamespace : String := ""

/-- State of one `EventEmitter` instance (src/EventEmitter.ts lines
7-20 and constructor).  `throttleState` and `debounceState` hold the
mutable closure state of the rate-shaping wrappers, keyed by record id;
`debounceState` records the pending timer's argument list (the timer
firing itself happens outside any `emit` call). -/
structure EmitterState where
  globalSeparator : String
  eventNamespaces : Namespaces
  eventFilters : List (String → String → Bool)
  executingListeners : List (Nat × Nat)
  listenerQueue : List QueueEntry
  throttleState : List (Nat × Int)
  debounceState : List (Nat × List Value)
  nextId : Nat

/-- A freshly constructed `new EventEmitter()` (default global
options). -/
def initialState : EmitterState :=
  { globalSeparator := defaultSeparator
    eventNamespaces := []
    eventFilters := []
    executingListeners := []
    listenerQueue := []
    throttleState := []
    debounceState := []
    nextId := 0 }

/-- Translation of `insertSorted` (src/Utils.ts lines 23-33):
`const index = listeners.findIndex(l => listenerObject.priority >
l.priority); if (index === -1) push else splice(index, 0, ...)`. -/
def insertSorted (listeners : List EventListenerRec) (x : EventListenerRec) :
    List EventListenerRec :=
  match jsFindIndex (fun l => decide (l.priority < x.priority)) listeners with
  | none => listeners ++ [x]
  | some i => insertAt i x listeners

/-- Translation of the inner `findSeparatorInListeners` helper of
`findEventInfo` (src/Utils.ts lines 66-69):
`listeners.find(condition)?.eventInfo.separator || null` — note that an
empty-string separator is falsy and collapses to `null`. -/
def findSeparatorInListeners (listeners : List EventListenerRec)
    (cond : EventListenerRec → Bool) : Option String :=
  match listeners.find? cond with
  | some l => if l.eventInfo.separator = "" then none else some l.eventInfo.separator
  | none => none

/-- Looking up one bucket: `eventNamespaces[namespace]?.[eventName]`. -/
def bucketAt (ns : Namespaces) (nsp ev : String) : Option Bucket :=
  (alookup ns nsp).bind (fun evs => alookup evs ev)

/-- Translation of the inner `findSeparatorForEvent` helper of
`findEventInfo` (src/Utils.ts lines 71-81). -/
def findSeparatorForEvent (ns : Namespaces) (event nsp eventName : String)
    (isWildcard : Bool) : Option String :=
  match bucketAt ns nsp eventName with
  | none => none
  | some bk =>
    if isWildcard then
      findSeparatorInListeners bk.listeners (fun _ => jsStartsWith event nsp)
    else
      match findSeparatorInListeners bk.listeners
          (fun l => l.eventInfo.event == event) with
      | some sep => some sep
      | none =>
        if nsp = defaultWildCard then
          findSeparatorInListeners bk.listeners
            (fun l => jsEndsWith event (l.eventInfo.separator ++ eventName))
        else none

/-- Translation of `findEventInfo` (src/Utils.ts lines 65-95): scan the
registry in insertion order for a listener whose stored event info
matches `event`, returning its separator; fall back to the default
separator. -/
def findEventInfo (event : String) (ns : Namespaces) : String :=
  (ns.findSome? (fun nsPair =>
    nsPair.2.findSome? (fun evPair =>
      findSeparatorForEvent ns event nsPair.1 evPair.1
        (evPair.1 == defaultWildCard)))).getD defaultSeparator

/-- Options bag of `on` (src/Interfaces.ts `Option`). -/
structure OnOption where
  filter : Option (String → String → Bool) := none
  throttle : Option Int := none
  debounce : Option Int := none
  priority : Option Int := none
  concurrency : Option Nat := none
  separator : Option String := none

/-- The registry-update part of `on` (src/EventEmitter.ts lines
73-81): create the namespace object and the bucket if missing (a fresh
JavaScript object key is appended), insert the record sorted by
priority, and overwrite the bucket-level `throttled` flag. -/
def registryInsert (ns0 : Namespaces) (nsp eventName : String)
    (rec1 : EventListenerRec) (thr : Bool) : Namespaces :=
  let ns1 := if (alookup ns0 nsp).isNone then ns0 ++ [(nsp, [])] else ns0
  let evs0 := (alookup ns1 nsp).getD []
  let evs1 := if (alookup evs0 eventName).isNone then
      evs0 ++ [(eventName, ⟨[], false⟩)] else evs0
  let bk := (alookup evs1 eventName).getD ⟨[], false⟩
  aset nsp (aset eventName ⟨insertSorted bk.listeners rec1, thr⟩ evs1) ns1

/-- Translation of `on` (src/EventEmitter.ts lines 51-86): resolve the
separator, parse the event, wrap the listener (throttle takes
precedence over debounce by branch order), build the record with a
fresh id, create the namespace / bucket objects if missing, insert
sorted by priority, overwrite the bucket's `throttled` flag, and append
the filter if supplied. -/
def onAdd (s : EmitterState) (event : String) (uid : Nat) (opt : OnOption) :
    EmitterState :=
  let usedSeparator := getPrioritizedValue s.globalSeparator opt.separator
  let eventInfo : EventInfo := ⟨usedSeparator, event⟩
  let p := parseEvent event usedSeparator
  let nsp := p.1
  let eventName := p.2
  let stored : StoredListener :=
    match opt.throttle with
    | some d => .throttled uid eventName d
    | none =>
      match opt.debounce with
      | some d => .debounced uid eventName d
      | none => .plain uid
  let rec1 : EventListenerRec :=
    ⟨stored, opt.priority.getD 0, eventInfo, opt.concurrency, s.nextId⟩
  { s with
    eventNamespaces := registryInsert s.eventNamespaces nsp eventName rec1
      opt.throttle.isSome
    eventFilters := s.eventFilters ++
      (match opt.filter with | some f => [f] | none => [])
    nextId := s.nextId + 1 }

/-- Trace of observable dispatch actions produced by one `emit` call:
`attempt id` marks `processListener` being entered for a listener
record, `userCall uid args` an actual invocation of the user callback
`uid` with argument list `args`, `handled` a listener error caught and
logged by `handleListenerError`, and `debScheduled` a debounce timer
being (re)scheduled with the argument list its callback will receive. -/
inductive TraceEv where
  | attempt (id : Nat)
  | userCall (uid : Nat) (args : List Value)
  | handled (eventName : String) (msg : String)
  | debScheduled (uid : Nat) (args : List Value)
deriving DecidableEq

/-- The admission test `executingCount < concurrency`
(src/EventEmitter.ts line 187); `concurrency = Infinity` (`none`)
always admits. -/
def admitLt (c : Nat) (conc : Option Nat) : Bool :=
  match conc with
  | none => true
  | some k => c < k

/-- Running the stored `listener(eventName, ...args)` call of
`processListener` (src/EventEmitter.ts lines 190-194) to completion.
`callArgs` is the full argument list of the call (`eventName ::
args`).  A plain listener is the user callback itself.  A throttled
listener runs the wrapper body of src/EventEmitter.ts lines 248-254:
compare `now` against the closure's `lastCallTime` and either invoke
`fn(regEventName, ...callArgs)` — prepending the registration-time
event name to the arguments the wrapper received — or silently drop the
call.  A debounced listener (lines 267-272) clears and re-arms the
timer with `(regEventName, ...callArgs)` and returns at once; errors of
the eventual timer callback never reach the dispatch path, which is why
its result is always `ok` here.  Returns the updated state, the trace,
and the promise outcome seen by `processListener`'s `await`. -/
def invokeStored (l : StoredListener) (recId : Nat) (callArgs : List Value)
    (now : Int) (env : CbEnv) (s : EmitterState) :
    EmitterState × List TraceEv × CbResult :=
  match l with
  | .plain uid => (s, [.userCall uid callArgs], env uid callArgs)
  | .throttled uid regEv delay =>
    let last := lookupD s.throttleState recId 0
    if delay ≤ now - last then
      ({ s with throttleState := aset recId now s.throttleState },
       [.userCall uid (regEv :: callArgs)], env uid (regEv :: callArgs))
    else
      (s, [], .ok)
  | .debounced uid regEv _ =>
    ({ s with debounceState := aset recId (regEv :: callArgs) s.debounceState },
     [.debScheduled uid (regEv :: callArgs)], .ok)

/-- The admitted path of `processListener` (src/EventEmitter.ts lines
188-198) run to the listener body's completion: increment the
in-flight counter, `await` the stored listener call — whose rejection
is the `Except.error` produced from the `CbResult` — catch that error
into a `handled` trace entry (`handleListenerError`), and in the
`finally` decrement the counter.  Returns the state and trace before
the queue drain. -/
def admittedStep (env : CbEnv) (now : Int) (listener : StoredListener) (id : Nat)
    (eventName : String) (args : List Value) (s : EmitterState) :
    EmitterState × List TraceEv :=
  let executingCount := lookupD s.executingListeners id 0
  let s1 := { s with
    executingListeners := aset id (executingCount + 1) s.executingListeners }
  let inv := invokeStored listener id (eventName :: args) now env s1
  let listenerPromise : Except String Unit :=
    match inv.2.2 with
    | .ok => .ok ()
    | .err m => .error m
  let caught : EmitterState × List TraceEv :=
    match listenerPromise with
    | .ok _ => (inv.1, inv.2.1)
    | .error m => (inv.1, inv.2.1 ++ [.handled eventName m])
  ({ caught.1 with
     executingListeners :=
       aset id (lookupD caught.1.executingListeners id 0 - 1)
         caught.1.executingListeners }, caught.2)

/-- Translation of `processListener` (src/EventEmitter.ts lines
178-204) followed, in its `finally` block, by `dequeueNextListener`
(lines 212-226), running each admitted listener body to completion.
If the admission test passes, run `admittedStep` and then drain one
queued invocation of the same id, recursively; the drained run's
outcome (and any error it failed to catch) is awaited by this
invocation's promise.  Otherwise push a queue entry and return
immediately (line 202).  The `isThrottled` flag only selects between
two casts in the source, so both source branches perform the same
call.  `fuel` bounds the depth of the queue-draining recursion. -/
def processListener (env : CbEnv) (now : Int) :
    Nat → StoredListener → Nat → Option Nat → Bool → String → List Value →
    EmitterState → Except String (EmitterState × List TraceEv)
  | fuel, listener, id, conc, _isThrottled, eventName, args, s =>
    let executingCount := lookupD s.executingListeners id 0
    if admitLt executingCount conc then
      let st := admittedStep env now listener id eventName args s
      match fuel with
      | 0 => .ok (st.1, .attempt id :: st.2)
      | n + 1 =>
        match extractFirstBy (fun t => t.id == id) st.1.listenerQueue with
        | none => .ok (st.1, .attempt id :: st.2)
        | some (e, rest) =>
          match processListener env now n e.listener e.id e.concurrency
              e.isThrottled e.eventName e.args
              { st.1 with listenerQueue := rest } with
          | .error m => .error m
          | .ok (s5, tr3) => .ok (s5, .attempt id :: (st.2 ++ tr3))
    else
      .ok ({ s with listenerQueue :=
              s.listenerQueue ++ [⟨listener, id, conc, _isThrottled, eventName, args⟩] },
           [.attempt id])

/-- The filtered listener group of one
`executeSpecificListeners(namespace, checkEventName, ...)` call
(src/EventEmitter.ts lines 156-160): the bucket's listeners whose
stored separator equals the separator resolved for this emit, each
paired with the bucket's `throttled` flag. -/
def groupOf (ns : Namespaces) (nsp ev sep : String) :
    List (EventListenerRec × Bool) :=
  match bucketAt ns nsp ev with
  | none => []
  | some bk =>
    (bk.listeners.filter (fun r => r.eventInfo.separator == sep)).map
      (fun r => (r, bk.throttled))

/-- The matched listener set of one `emit` call (src/EventEmitter.ts
lines 123-137): resolve the separator, parse, evaluate the OR of the
registered filters, and collect the four groups in the order the
`Promise.all` array lists them — global wildcard, namespace wildcard
(skipped for the empty namespace), wildcard-as-namespace, exact.
Returns the parsed event name together with the matched records. -/
def matchedOf (s : EmitterState) (event : String) :
    String × List (EventListenerRec × Bool) :=
  let sep := findEventInfo event s.eventNamespaces
  let p := parseEvent event sep
  let nsp := p.1
  let eventName := p.2
  let shouldEmit := s.eventFilters.isEmpty ||
    s.eventFilters.any (fun f => f eventName nsp)
  if shouldEmit then
    (eventName,
      groupOf s.eventNamespaces wildCardNamespace defaultWildCard sep ++
      (if wildCardNamespace ≠ nsp then
        groupOf s.eventNamespaces nsp defaultWildCard sep else []) ++
      groupOf s.eventNamespaces defaultWildCard eventName sep ++
      groupOf s.eventNamespaces nsp eventName sep)
  else (eventName, [])

/-- Sequentially dispatching the matched listeners: each matched record
goes through `processListener` (src/EventEmitter.ts lines 161-163).
The async closures of the `map` start synchronously in array order, so
this order is the order in which listener invocations begin. -/
def runMatched (env : CbEnv) (now : Int) (fuel : Nat) (eventName : String)
    (args : List Value) :
    List (EventListenerRec × Bool) → EmitterState →
    Except String (EmitterState × List TraceEv)
  | [], s => .ok (s, [])
  | rb :: rest, s =>
    match processListener env now fuel rb.1.listener rb.1.id rb.1.concurrency
        rb.2 eventName args s with
    | .error m => .error m
    | .ok (s1, tr1) =>
      match runMatched env now fuel eventName args rest s1 with
      | .error m => .error m
      | .ok (s2, tr2) => .ok (s2, tr1 ++ tr2)

/-- One complete `emit(event, ...args)` call (src/EventEmitter.ts lines
123-138) in the sequential model: every listener body completes without
suspension, `now` is the clock value observed by throttle wrappers
during this emit, and `fuel` bounds the queue-draining recursion.  The
result is `emit`'s settled promise: `Except.ok` with the final state
and trace if it resolves, `Except.error` if it rejects. -/
def emitA (env : CbEnv) (now : Int) (fuel : Nat) (s : EmitterState)
    (event : String) (args : List Value) :
    Except String (EmitterState × List TraceEv) :=
  let m := matchedOf s event
  runMatched env now fuel m.1 args m.2 s

/-- The user-callback invocations of a trace, in order. -/
def userCallsOf (tr : List TraceEv) : List (Nat × List Value) :=
  tr.filterMap (fun e =>
    match e with
    | .userCall uid args => some (uid, args)
    | _ => none)

/-- The trace with the error-sink entries removed (everything except
`handled`). -/
def visibleTrace (tr : List TraceEv) : List TraceEv :=
  tr.filter (fun e =>
    match e with
    | .handled _ _ => false
    | _ => true)

/-- The scheduled debounce calls of a trace. -/
def debSchedOf (tr : List TraceEv) : List (Nat × List Value) :=
  tr.filterMap (fun e =>
    match e with
    | .debScheduled uid args => some (uid, args)
    | _ => none)

/-- Number of invocations of user callback `uid` in a trace. -/
def countCalls (uid : Nat) (tr : List TraceEv) : Nat :=
  (userCallsOf tr).countP (fun c => c.1 == uid)

/-- The user-callback invocations produced by one `emit` call (empty if
the promise rejected — the theorems show it never does). -/
def emitCalls (env : CbEnv) (now : Int) (fuel : Nat) (s : EmitterState)
    (event : String) (args : List Value) : List (Nat × List Value) :=
  match emitA env now fuel s event args with
  | .ok r => userCallsOf r.2
  | .error _ => []

/-- Whether one `emit` call's promise resolves (does not reject). -/
def emitResolves (env : CbEnv) (now : Int) (fuel : Nat) (s : EmitterState)
    (event : String) (args : List Value) : Bool :=
  match emitA env now fuel s event args with
  | .ok _ => true
  | .error _ => false

/-- One in-flight (admitted) listener invocation in the task model.
`tag` is the emit call whose promise chain awaits this invocation's
completion (src/EventEmitter.ts line 162: the group's `Promise.all`
awaits `processListener`; a chained dequeue, line 199, is awaited by
the `finally` of the completing invocation, so the chain keeps the tag
of the invocation that dequeued it).  `remaining` counts the suspension
points the listener body still has to pass. -/
structure AInv where
  tag : Nat
  id : Nat
  remaining : Nat
deriving DecidableEq

/-- A pending-invocation queue entry of the task model: the listener
id, its concurrency, and the emit call that enqueued it
(src/EventEmitter.ts line 202; the stored callback and arguments are
irrelevant to admission, so the task model omits them). -/
structure BQEntry where
  id : Nat
  concurrency : Option Nat
  tag : Nat
deriving DecidableEq

/-- State of the task model: the shared `executingListeners` counters
and `listenerQueue`, the set of in-flight listener invocations, the
number of per-listener promises each emit call is still awaiting
(`pendings`: an emit's promise has resolved exactly when its count is
0), a counter for fresh emit tags, and the trace of invocation starts
`(listener id, awaiting emit tag)`. -/
structure DState where
  executing : List (Nat × Nat)
  queue : List BQEntry
  active : List AInv
  pendings : List (Nat × Nat)
  nextTag : Nat
  started : List (Nat × Nat)
deriving DecidableEq

/-- The initial task state: no counters, empty queue, nothing running. -/
def DState.init : DState :=
  ⟨[], [], [], [], 0, []⟩

/-- Admission of one matched listener record during the synchronous
phase of `emit` (the body of `processListener`, src/EventEmitter.ts
lines 186-203, up to the listener's first suspension): if
`executingCount < concurrency`, increment the counter and start the
invocation — the emit `tag` then awaits one more per-listener promise;
otherwise push a queue entry and return, which resolves that listener's
per-listener promise immediately (the `else` branch returns right after
the push), so the emit's pending count is not incremented. -/
def admitOne (tag : Nat) (stepsOf : Nat → Nat) (st : DState)
    (r : EventListenerRec) : DState :=
  let c := lookupD st.executing r.id 0
  if admitLt c r.concurrency then
    { st with
      executing := aset r.id (c + 1) st.executing
      active := st.active ++ [⟨tag, r.id, stepsOf r.id⟩]
      pendings := aset tag (lookupD st.pendings tag 0 + 1) st.pendings
      started := st.started ++ [(r.id, tag)] }
  else
    { st with queue := st.queue ++ [⟨r.id, r.concurrency, tag⟩] }

/-- The synchronous phase of one `emit(event, ...)` call on emitter
`em` (src/EventEmitter.ts lines 123-137 and the synchronous prefix of
each `processListener`): allocate a fresh tag, register its pending
count, and admit or enqueue every matched listener in group order.
`stepsOf` chooses how many suspension points each started body will
have. -/
def applyEmit (em : EmitterState) (event : String) (stepsOf : Nat → Nat)
    (st : DState) : DState :=
  let tag := st.nextTag
  let st1 := { st with nextTag := tag + 1, pendings := st.pendings ++ [(tag, 0)] }
  ((matchedOf em event).2).foldl (fun acc rb => admitOne tag stepsOf acc rb.1) st1

/-- Completion of the invocation at position `i` of the active list
(the continuation after the listener body's last suspension point:
`finally { this.executingListeners[id]--; await
this.dequeueNextListener(id); }`, src/EventEmitter.ts lines 197-200 and
212-226, which runs without interleaving until the dequeued body's
first suspension): decrement the counter; take the first queued entry
with the same id, if any; re-check admission for it (always true after
the decrement when caps are consistent) and start it under the *same*
tag — the completing invocation's promise, and hence the emit that
awaits it, now awaits the dequeued run; with nothing to dequeue (or a
re-enqueued entry), the chain's per-listener promise resolves and the
tag's pending count drops.  `k` chooses the dequeued body's number of
suspension points. -/
def applyComplete (i : Nat) (a : AInv) (k : Nat) (st : DState) : DState :=
  let st1 := { st with
    active := st.active.eraseIdx i
    executing := aset a.id (lookupD st.executing a.id 0 - 1) st.executing }
  match extractFirstBy (fun t => t.id == a.id) st1.queue with
  | none =>
    { st1 with pendings := aset a.tag (lookupD st1.pendings a.tag 0 - 1) st1.pendings }
  | some (e, rest) =>
    let st2 := { st1 with queue := rest }
    let c := lookupD st2.executing e.id 0
    if admitLt c e.concurrency then
      { st2 with
        executing := aset e.id (c + 1) st2.executing
        active := st2.active ++ [⟨a.tag, e.id, k⟩]
        started := st2.started ++ [(e.id, a.tag)] }
    else
      { st2 with
        queue := st2.queue ++ [e]
        pendings := aset a.tag (lookupD st2.pendings a.tag 0 - 1) st2.pendings }

/-- Small-step transition relation of the cooperative scheduler over a
fixed emitter `em` (registrations do not change during dispatch): an
`emit` call may start at any time with any event and any body
durations; any running body may pass one suspension point; any body
with no suspension points left may complete, which also drains the
queue by one as the source's `finally` does. -/
inductive BStep (em : EmitterState) : DState → DState → Prop
  | emitStart (event : String) (stepsOf : Nat → Nat) (st : DState) :
      BStep em st (applyEmit em event stepsOf st)
  | tick (i : Nat) (a : AInv) (st : DState)
      (h1 : st.active.get? i = some a) (h2 : 0 < a.remaining) :
      BStep em st { st with active := st.active.set i ⟨a.tag, a.id, a.remaining - 1⟩ }
  | complete (i : Nat) (a : AInv) (k : Nat) (st : DState)
      (h1 : st.active.get? i = some a) (h2 : a.remaining = 0) :
      BStep em st (applyComplete i a k st)

/-- Reachability in the task model. -/
def BReach (em : EmitterState) : DState → DState → Prop :=
  Relation.ReflTransGen (BStep em)

/-- All listener records stored anywhere in a registry. -/
def recordsOf (ns : Namespaces) : List EventListenerRec :=
  ns.flatMap (fun p => p.2.flatMap (fun q => q.2.listeners))

/-- Concurrency caps are consistent per listener id (true in the source
because ids are fresh `uuidv4()` values, so each id has exactly one
record). -/
def ConsistentConc (ns : Namespaces) : Prop :=
  ∀ r1 ∈ recordsOf ns, ∀ r2 ∈ recordsOf ns, r1.id = r2.id →
    r1.concurrency = r2.concurrency

/-- Concurrency-cap consistency is checkable on concrete registries. -/
instance decConsistentConc (ns : Namespaces) : Decidable (ConsistentConc ns) := by
  unfold ConsistentConc
  infer_instance

/-- Callback environment in which every callback succeeds. -/
def envOk : CbEnv := fun _ _ => .ok

/-- Callback environment in which callback 1 throws and the others
succeed (the error-isolation test scenario of the spec). -/
def envErr1 : CbEnv := fun uid _ => if uid = 1 then .err "Listener Error" else .ok

/-- Scenario: one listener (callback 0) on `"*"`. -/
def stGlobalStar : EmitterState := onAdd initialState "*" 0 {}

/-- Scenario: one listener (callback 0) on `"ns.*"`. -/
def stNsStar : EmitterState := onAdd initialState "ns.*" 0 {}

/-- Scenario: one listener (callback 0) on `"*.x"`. -/
def stStarX : EmitterState := onAdd initialState "*.x" 0 {}

/-- Scenario: callbacks 1, 2, 3 registered in this order on
`"priorityEvent"` with priorities 0, 2, 1. -/
def stPrio : EmitterState :=
  onAdd (onAdd (onAdd initialState "priorityEvent" 1 {priority := some 0})
    "priorityEvent" 2 {priority := some 2}) "priorityEvent" 3 {priority := some 1}

/-- Scenario: callback 0 registered on `"evt"` with `throttle: 100`. -/
def stThr : EmitterState := onAdd initialState "evt" 0 {throttle := some 100}

/-- Scenario: callback 0 registered on `"x.y"` (used to emit a
non-matching event). -/
def stMiss : EmitterState := onAdd initialState "x.y" 0 {}

/-- Scenario: callbacks 1, 2, 3 registered in this order on
`"errorEvent"`, with callback 1 throwing (environment `envErr1`). -/
def stErr : EmitterState :=
  onAdd (onAdd (onAdd initialState "errorEvent" 1 {}) "errorEvent" 2 {})
    "errorEvent" 3 {}

/-- Scenario for the task model: one listener (record id 0) on `"e"`
with `concurrency: 1`. -/
def emC2 : EmitterState := onAdd initialState "e" 0 {concurrency := some 1}

/-- Task state after the first `emit('e')` admits its invocation (one
suspension point): the invocation of listener 0 is in flight under emit
tag 0. -/
def sC2a : DState := applyEmit emC2 "e" (fun _ => 1) DState.init

/-- Task state after a second `emit('e')` starts while the first
invocation is still in flight: the cap `concurrency = 1` is reached, so
the second emit's invocation is enqueued. -/
def sC2b : DState := applyEmit emC2 "e" (fun _ => 1) sC2a

/-- Scenario for the task-model witness: one listener (record id 0) on
`"w"` with `concurrency: 2`. -/
def emW5 : EmitterState := onAdd initialState "w" 0 {concurrency := some 2}

/-- Scenario: a single listener (callback 9) registered on `"*"`. -/
def stStar1 : EmitterState := onAdd initialState "*" 9 {}

/-- The strict order maintained inside a bucket: records appear in
descending priority, with equal priorities ordered by (ascending)
registration id — the stable tie-break `insertSorted` produces. -/
def listenerOrder (a b : EventListenerRec) : Prop :=
  b.priority < a.priority ∨ (a.priority = b.priority ∧ a.id < b.id)

/-- A bucket is ordered: descending priority, registration order on
ties. -/
def OrderedBucket (l : List EventListenerRec) : Prop :=
  l.Pairwise listenerOrder

/-- One registration call `on(event, listener, option)`. -/
structure RegCall where
  event : String
  uid : Nat
  opt : OnOption

/-- Applying a sequence of registration calls to a fresh emitter. -/
def applyRegs (regs : List RegCall) : EmitterState :=
  regs.foldl (fun s r => onAdd s r.event r.uid r.opt) initialState

/-- The registration sequence of the priority scenario: callbacks 1, 2,
3 on `"priorityEvent"` with priorities 0, 2, 1. -/
def regsPrio : List RegCall :=
  [⟨"priorityEvent", 1, {priority := some 0}⟩,
   ⟨"priorityEvent", 2, {priority := some 2}⟩,
   ⟨"priorityEvent", 3, {priority := some 1}⟩]

/-- The registry invariant: every bucket is ordered and all record ids
are below the fresh-id counter. -/
def RegistryOrdered (s : EmitterState) : Prop :=
  ∀ nsp ev bk, bucketAt s.eventNamespaces nsp ev = some bk →
    OrderedBucket bk.listeners ∧ ∀ r ∈ bk.listeners, r.id < s.nextId

/-- Bound invariant of the task model: no listener with a finite
concurrency cap ever has more in-flight invocations than its cap. -/
def execBounded (em : EmitterState) (st : DState) : Prop :=
  ∀ r ∈ recordsOf em.eventNamespaces, ∀ c, r.concurrency = some c →
    lookupD st.executing r.id 0 ≤ c

/-- Queue entries carry the concurrency of their listener id as stored
in the registry. -/
def queueConsistent (em : EmitterState) (st : DState) : Prop :=
  ∀ e ∈ st.queue, ∀ r ∈ recordsOf em.eventNamespaces, r.id = e.id →
    r.concurrency = e.concurrency

/-- The inductive invariant of the task model. -/
def DInv (em : EmitterState) (st : DState) : Prop :=
  execBounded em st ∧ queueConsistent em st

/-- C3 (counterexample): the claim says that when the separator occurs,
the namespace is the join of *all* leading segments, so `parse("a.b.c",
".")` would have to be `("a.b", "c")`; the code keeps only `parts[0]`
and returns `("a", "c")`, dropping the middle segment. -/
theorem parseEvent_drops_middle_segments :
    parseEvent "a.b.c" "." = ("a", "c") ∧
    parseEvent "a.b.c" "." ≠ ("a.b", "c") := by
  decide

/-- C4 (counterexample): for a listener registered with `throttle: 100`
on `"evt"`, an admitted invocation of `emit("evt", "payload")` at clock
1000 hands the user callback the argument list `("evt", "evt",
"payload")` — the wrapper prepends the registration-time event name on
top of the event name `processListener` already passed — instead of the
claimed `("evt", "payload")`. -/
theorem wrapped_listener_receives_duplicated_eventName :
    emitCalls envOk 1000 1 stThr "evt" ["payload"] =
      [(0, ["evt", "evt", "payload"])] ∧
    emitCalls envOk 1000 1 stThr "evt" ["payload"] ≠
      [(0, ["evt", "payload"])] := by
  decide

/-- C7: wildcard coverage.  A listener on `"*"` fires for `emit("a")`
and `emit("ns.a")`; a listener on `"ns.*"` fires for `emit("ns.x")` and
`emit("ns.y")` but not `emit("other.x")`; a listener on `"*.x"` fires
for `emit("ns1.x")` and `emit("ns2.x")` but not `emit("ns1.y")`. -/
theorem wildcard_coverage :
    emitCalls envOk 0 1 stGlobalStar "a" [] = [(0, ["a"])] ∧
    emitCalls envOk 0 1 stGlobalStar "ns.a" [] = [(0, ["a"])] ∧
    emitCalls envOk 0 1 stNsStar "ns.x" [] = [(0, ["x"])] ∧
    emitCalls envOk 0 1 stNsStar "ns.y" [] = [(0, ["y"])] ∧
    emitCalls envOk 0 1 stNsStar "other.x" [] = [] ∧
    emitCalls envOk 0 1 stStarX "ns1.x" [] = [(0, ["x"])] ∧
    emitCalls envOk 0 1 stStarX "ns2.x" [] = [(0, ["x"])] ∧
    emitCalls envOk 0 1 stStarX "ns1.y" [] = [] := by
  decide

/-- C9: emitting the reserved wildcard string `"*"` itself parses to
`(namespace = "", eventName = "*")`, so the global-wildcard group and
the exact group are the same bucket and the listener registered on
`"*"` (callback 9) is invoked twice by this single emit call. -/
theorem wildcard_emit_double_invocation :
    parseEvent "*" (findEventInfo "*" stStar1.eventNamespaces) = ("", "*") ∧
    emitCalls envOk 0 1 stStar1 "*" [] = [(9, ["*"]), (9, ["*"])] := by
  decide

/-- C2 (the code contradicts the claim): one listener with
`concurrency: 1` on `"e"`; a first `emit("e")` admits its invocation
(emit tag 0); a second `emit("e")` arrives while it is in flight, so
its invocation is enqueued.  In the resulting reachable task state the
second emit (tag 1) has zero pending per-listener promises — its
promise has already resolved — while its deferred invocation still sits
in the queue and no invocation for tag 1 ever started: `processListener`
returns immediately after the push, so the deferred run's completion is
awaited by the *first* emit's chain, not by the emit that enqueued
it. -/
theorem enqueued_emit_resolves_before_deferred_invocation :
    BReach emC2 DState.init sC2b ∧
    sC2b.queue = [⟨0, some 1, 1⟩] ∧
    lookupD sC2b.pendings 1 0 = 0 ∧
    sC2b.started = [(0, 0)] := by
  refine ⟨?_, by decide, by decide, by decide⟩
  exact Relation.ReflTransGen.head (BStep.emitStart "e" (fun _ => 1) DState.init)
    (Relation.ReflTransGen.head (BStep.emitStart "e" (fun _ => 1) sC2a)
      Relation.ReflTransGen.refl)

/-- Helper: every `processListener` call returns a resolved promise
(`Except.ok`) — the catch swallows the listener's failure — and its
trace records the attempt of the given listener id. -/
theorem processListener_ok (env : CbEnv) (now : Int) :
    ∀ (fuel : Nat) (l : StoredListener) (id : Nat) (conc : Option Nat)
      (thr : Bool) (ev : String) (args : List Value) (s : EmitterState),
    ∃ s2 tr, processListener env now fuel l id conc thr ev args s =
        .ok (s2, tr) ∧ TraceEv.attempt id ∈ tr := by
  intro fuel
  induction fuel with
  | zero =>
    intro l id conc thr ev args s
    rw [processListener.eq_def]
    dsimp only
    split
    · exact ⟨_, _, rfl, List.mem_cons_self _ _⟩
    · exact ⟨_, _, rfl, List.mem_cons_self _ _⟩
  | succ n ih =>
    intro l id conc thr ev args s
    rw [processListener.eq_def]
    dsimp only
    split
    · split
      · exact ⟨_, _, rfl, List.mem_cons_self _ _⟩
      · rename_i e rest hex
        obtain ⟨s5, tr3, heq, hmem⟩ := ih e.listener e.id e.concurrency
          e.isThrottled e.eventName e.args _
        rw [heq]
        exact ⟨_, _, rfl, List.mem_cons_self _ _⟩
    · exact ⟨_, _, rfl, List.mem_cons_self _ _⟩

/-- Helper: dispatching a whole matched-listener list resolves and
attempts every listed record. -/
theorem runMatched_ok (env : CbEnv) (now : Int) (fuel : Nat) (evName : String)
    (args : List Value) :
    ∀ (ml : List (EventListenerRec × Bool)) (s : EmitterState),
    ∃ s2 tr, runMatched env now fuel evName args ml s = .ok (s2, tr) ∧
      ∀ rb ∈ ml, TraceEv.attempt rb.1.id ∈ tr := by
  intro ml
  induction ml with
  | nil =>
    intro s
    exact ⟨s, [], rfl, by simp⟩
  | cons rb rest ih =>
    intro s
    obtain ⟨s1, tr1, heq1, hm1⟩ := processListener_ok env now fuel rb.1.listener
      rb.1.id rb.1.concurrency rb.2 evName args s
    obtain ⟨s2, tr2, heq2, hm2⟩ := ih s1
    refine ⟨s2, tr1 ++ tr2, ?_, ?_⟩
    · rw [runMatched.eq_def]
      dsimp only
      rw [heq1]
      dsimp only
      rw [heq2]
    · intro x hx
      rcases List.mem_cons.mp hx with h | h
      · subst h
        exact List.mem_append_left _ hm1
      · exact List.mem_append_right _ (hm2 x h)

/-- C1: for every emitter state, event, argument list and callback
behaviour — including callbacks that throw synchronously or reject
asynchronously — `emit`'s promise resolves (`Except.ok`, never
`Except.error`): every failure is caught at the single-listener
boundary, and the resolved trace records an attempt for every matched
listener. -/
theorem emit_never_rejects (env : CbEnv) (now : Int) (fuel : Nat)
    (s : EmitterState) (event : String) (args : List Value) :
    ∃ out, emitA env now fuel s event args = .ok out ∧
      ∀ rb ∈ (matchedOf s event).2, TraceEv.attempt rb.1.id ∈ out.2 := by
  obtain ⟨s2, tr, heq, hm⟩ := runMatched_ok env now fuel (matchedOf s event).1
    args (matchedOf s event).2 s
  exact ⟨(s2, tr), heq, hm⟩

/-- Witness for C1: three listeners on `"errorEvent"` of which callback
1 throws; the emit still resolves, and the theorem instantiates. -/
theorem emit_never_rejects_witness :
    emitResolves envErr1 0 1 stErr "errorEvent" [] = true ∧
    (∃ out, emitA envErr1 0 1 stErr "errorEvent" [] = .ok out ∧
      ∀ rb ∈ (matchedOf stErr "errorEvent").2, TraceEv.attempt rb.1.id ∈ out.2) :=
  ⟨by decide, emit_never_rejects envErr1 0 1 stErr "errorEvent" []⟩

/-- C10: an emit whose resolved separator and registry match no
listener (or that the filters veto) returns the state unchanged — the
namespace map, filter list, in-flight counters, throttle and debounce
closure state and the pending-invocation queue are all exactly as
before — and produces an empty trace, so no callback is invoked. -/
theorem emit_no_match_frame (env : CbEnv) (now : Int) (fuel : Nat)
    (s : EmitterState) (event : String) (args : List Value)
    (h : (matchedOf s event).2 = []) :
    emitA env now fuel s event args = .ok (s, []) := by
  dsimp only [emitA]
  rw [h, runMatched.eq_def]

/-- Witness for C10: a listener on `"x.y"` and an emit of the unrelated
event `"zzz"`; the matched set is empty and the state comes back
untouched. -/
theorem emit_no_match_frame_witness :
    (matchedOf stMiss "zzz").2 = [] ∧
    emitA envOk 0 1 stMiss "zzz" [] = .ok (stMiss, []) :=
  ⟨by decide, emit_no_match_frame envOk 0 1 stMiss "zzz" [] (by decide)⟩

/-- Helper: `visibleTrace` distributes over append. -/
theorem visibleTrace_append (a b : List TraceEv) :
    visibleTrace (a ++ b) = visibleTrace a ++ visibleTrace b := by
  simp [visibleTrace]

/-- Helper: `userCallsOf` distributes over append. -/
theorem userCallsOf_append (a b : List TraceEv) :
    userCallsOf (a ++ b) = userCallsOf a ++ userCallsOf b := by
  simp [userCallsOf]

/-- Helper: dropping the error-sink entries does not change the
user-callback invocations of a trace. -/
theorem userCallsOf_visible (tr : List TraceEv) :
    userCallsOf (visibleTrace tr) = userCallsOf tr := by
  induction tr with
  | nil => rfl
  | cons e rest ih =>
    cases e <;> simp [visibleTrace, userCallsOf] at ih ⊢ <;> exact ih

/-- Helper: an `attempt` entry survives `visibleTrace`. -/
theorem visibleTrace_cons_attempt (i : Nat) (t : List TraceEv) :
    visibleTrace (TraceEv.attempt i :: t) = TraceEv.attempt i :: visibleTrace t := by
  simp [visibleTrace]

/-- Helper: the state and trace produced by running a stored listener
do not depend on whether the callbacks succeed or fail — only the
promise outcome does. -/
theorem invokeStored_env (l : StoredListener) (recId : Nat) (cargs : List Value)
    (now : Int) (env1 env2 : CbEnv) (s : EmitterState) :
    (invokeStored l recId cargs now env1 s).1 =
      (invokeStored l recId cargs now env2 s).1 ∧
    (invokeStored l recId cargs now env1 s).2.1 =
      (invokeStored l recId cargs now env2 s).2.1 := by
  cases l with
  | plain uid => exact ⟨rfl, rfl⟩
  | throttled uid regEv delay =>
    dsimp only [invokeStored]
    split <;> exact ⟨rfl, rfl⟩
  | debounced uid regEv delay => exact ⟨rfl, rfl⟩

/-- Helper: the admitted path produces the same final state under any
two callback behaviours, and traces that agree outside the error
sink. -/
theorem admittedStep_env (env1 env2 : CbEnv) (now : Int) (l : StoredListener)
    (id : Nat) (ev : String) (args : List Value) (s : EmitterState) :
    (admittedStep env1 now l id ev args s).1 =
      (admittedStep env2 now l id ev args s).1 ∧
    visibleTrace (admittedStep env1 now l id ev args s).2 =
      visibleTrace (admittedStep env2 now l id ev args s).2 := by
  obtain ⟨hs, ht⟩ := invokeStored_env l id (ev :: args) now env1 env2 { s with executingListeners := aset id (lookupD s.executingListeners id 0 + 1) s.executingListeners }
  dsimp only [admittedStep]
  rcases h1 : (invokeStored l id (ev :: args) now env1 { s with executingListeners := aset id (lookupD s.executingListeners id 0 + 1) s.executingListeners }).2.2 with _ | m1 <;>
  rcases h2 : (invokeStored l id (ev :: args) now env2 { s with executingListeners := aset id (lookupD s.executingListeners id 0 + 1) s.executingListeners }).2.2 with _ | m2 <;>
    simp only [h1, h2, hs, ht, visibleTrace_append] <;> constructor <;>
    simp [visibleTrace, hs, ht]

/-- Helper: `processListener` reaches the same final state under any
two callback behaviours, with traces that agree outside the error
sink: one listener's failure changes nothing about the dispatch of the
others. -/
theorem processListener_env (env1 env2 : CbEnv) (now : Int) :
    ∀ (fuel : Nat) (l : StoredListener) (id : Nat) (conc : Option Nat)
      (thr : Bool) (ev : String) (args : List Value) (s : EmitterState),
    ∃ s2 tr1 tr2,
      processListener env1 now fuel l id conc thr ev args s = .ok (s2, tr1) ∧
      processListener env2 now fuel l id conc thr ev args s = .ok (s2, tr2) ∧
      visibleTrace tr1 = visibleTrace tr2 := by
  intro fuel
  induction fuel with
  | zero =>
    intro l id conc thr ev args s
    obtain ⟨hst, htr⟩ := admittedStep_env env1 env2 now l id ev args s
    rw [processListener.eq_def, processListener.eq_def]
    dsimp only
    by_cases hadm : admitLt (lookupD s.executingListeners id 0) conc = true
    · simp only [if_pos hadm]
      refine ⟨(admittedStep env1 now l id ev args s).1,
        TraceEv.attempt id :: (admittedStep env1 now l id ev args s).2,
        TraceEv.attempt id :: (admittedStep env2 now l id ev args s).2,
        rfl, by rw [hst], ?_⟩
      simp only [visibleTrace_cons_attempt, htr]
    · simp only [if_neg hadm]
      exact ⟨_, _, _, rfl, rfl, rfl⟩
  | succ n ih =>
    intro l id conc thr ev args s
    obtain ⟨hst, htr⟩ := admittedStep_env env1 env2 now l id ev args s
    rw [processListener.eq_def, processListener.eq_def]
    dsimp only
    by_cases hadm : admitLt (lookupD s.executingListeners id 0) conc = true
    · simp only [if_pos hadm, ← hst]
      rcases hex : extractFirstBy (fun t => t.id == id)
          (admittedStep env1 now l id ev args s).1.listenerQueue with _ | ⟨e, rest⟩
      · simp only [hex]
        refine ⟨(admittedStep env1 now l id ev args s).1,
          TraceEv.attempt id :: (admittedStep env1 now l id ev args s).2,
          TraceEv.attempt id :: (admittedStep env2 now l id ev args s).2,
          rfl, ?_, ?_⟩
        · rw [hst]
        · simp only [visibleTrace_cons_attempt, htr]
      · simp only [hex]
        obtain ⟨s5, t3a, t3b, ha, hb, hvis⟩ := ih e.listener e.id e.concurrency
          e.isThrottled e.eventName e.args
          { (admittedStep env1 now l id ev args s).1 with listenerQueue := rest }
        rw [ha, hb]
        refine ⟨s5, TraceEv.attempt id :: ((admittedStep env1 now l id ev args s).2 ++ t3a),
          TraceEv.attempt id :: ((admittedStep env2 now l id ev args s).2 ++ t3b),
          rfl, rfl, ?_⟩
        simp only [visibleTrace_cons_attempt, visibleTrace_append, htr, hvis]
    · simp only [if_neg hadm]
      exact ⟨_, _, _, rfl, rfl, rfl⟩

/-- Helper: dispatching a matched-listener list under two callback
behaviours reaches the same state, agrees outside the error sink, and
attempts every matched record. -/
theorem runMatched_env (env1 env2 : CbEnv) (now : Int) (fuel : Nat)
    (evName : String) (args : List Value) :
    ∀ (ml : List (EventListenerRec × Bool)) (s : EmitterState),
    ∃ s2 tr1 tr2,
      runMatched env1 now fuel evName args ml s = .ok (s2, tr1) ∧
      runMatched env2 now fuel evName args ml s = .ok (s2, tr2) ∧
      visibleTrace tr1 = visibleTrace tr2 ∧
      (∀ rb ∈ ml, TraceEv.attempt rb.1.id ∈ tr1) := by
  intro ml
  induction ml with
  | nil =>
    intro s
    exact ⟨s, [], [], rfl, rfl, rfl, by simp⟩
  | cons rb rest ih =>
    intro s
    obtain ⟨s1, ta1, tb1, ha1, hb1, hv1⟩ := processListener_env env1 env2 now fuel
      rb.1.listener rb.1.id rb.1.concurrency rb.2 evName args s
    obtain ⟨sm, trm, heqm, hmemm⟩ := processListener_ok env1 now fuel rb.1.listener
      rb.1.id rb.1.concurrency rb.2 evName args s
    obtain ⟨s2, ta2, tb2, ha2, hb2, hv2, hm2⟩ := ih s1
    have hmem1 : TraceEv.attempt rb.1.id ∈ ta1 := by
      rw [ha1] at heqm
      injection heqm with h
      injection h with h1 h2
      rw [← h2] at hmemm
      exact hmemm
    refine ⟨s2, ta1 ++ ta2, tb1 ++ tb2, ?_, ?_, ?_, ?_⟩
    · rw [runMatched.eq_def]
      dsimp only
      rw [ha1]
      dsimp only
      rw [ha2]
    · rw [runMatched.eq_def]
      dsimp only
      rw [hb1]
      dsimp only
      rw [hb2]
    · simp only [visibleTrace_append, hv1, hv2]
    · intro x hxx
      rcases List.mem_cons.mp hxx with h | h
      · subst h
        exact List.mem_append_left _ hmem1
      · exact List.mem_append_right _ (hm2 x h)

/-- C8: an error thrown or rejected by one listener never prevents the
sibling listeners of the same emit from running: under any two callback
behaviours (for instance, one where a listener fails and one where it
does not) the emit reaches the same final state, performs exactly the
same user-callback invocations, and attempts every matched listener;
the traces can differ only in the error-sink entries. -/
theorem error_isolation (env1 env2 : CbEnv) (now : Int) (fuel : Nat)
    (s : EmitterState) (event : String) (args : List Value) :
    ∃ s2 tr1 tr2,
      emitA env1 now fuel s event args = .ok (s2, tr1) ∧
      emitA env2 now fuel s event args = .ok (s2, tr2) ∧
      visibleTrace tr1 = visibleTrace tr2 ∧
      userCallsOf tr1 = userCallsOf tr2 ∧
      ∀ rb ∈ (matchedOf s event).2, TraceEv.attempt rb.1.id ∈ tr1 := by
  obtain ⟨s2, t1, t2, h1, h2, hv, hm⟩ := runMatched_env env1 env2 now fuel
    (matchedOf s event).1 args (matchedOf s event).2 s
  refine ⟨s2, t1, t2, h1, h2, hv, ?_, hm⟩
  rw [← userCallsOf_visible t1, ← userCallsOf_visible t2, hv]

/-- Witness for C8: three listeners on `"errorEvent"`, callback 1
throwing; all three are still invoked, identically to the run where
nothing throws. -/
theorem error_isolation_witness :
    emitCalls envErr1 0 1 stErr "errorEvent" [] =
      [(1, ["errorEvent"]), (2, ["errorEvent"]), (3, ["errorEvent"])] ∧
    (∃ s2 tr1 tr2,
      emitA envErr1 0 1 stErr "errorEvent" [] = .ok (s2, tr1) ∧
      emitA envOk 0 1 stErr "errorEvent" [] = .ok (s2, tr2) ∧
      visibleTrace tr1 = visibleTrace tr2 ∧
      userCallsOf tr1 = userCallsOf tr2 ∧
      ∀ rb ∈ (matchedOf stErr "errorEvent").2, TraceEv.attempt rb.1.id ∈ tr1) :=
  ⟨by decide, error_isolation envErr1 envOk 0 1 stErr "errorEvent" []⟩

/-- Helper: inserting into an empty bucket. -/
theorem insertSorted_nil (x : EventListenerRec) : insertSorted [] x = [x] := rfl

/-- Helper: the recursive behaviour of `insertSorted`: a new record
passes every entry whose priority is at least its own and lands before
the first entry of strictly lower priority. -/
theorem insertSorted_cons (a : EventListenerRec) (t : List EventListenerRec)
    (x : EventListenerRec) :
    insertSorted (a :: t) x =
      if a.priority < x.priority then x :: a :: t else a :: insertSorted t x := by
  by_cases h : a.priority < x.priority
  · simp [insertSorted, jsFindIndex, h, insertAt]
  · cases hfi : jsFindIndex (fun l => decide (l.priority < x.priority)) t with
    | none => simp [insertSorted, jsFindIndex, hfi, h]
    | some i => simp [insertSorted, jsFindIndex, hfi, h, insertAt]

/-- Helper: membership in an `insertSorted` result. -/
theorem mem_insertSorted (l : List EventListenerRec) (x b : EventListenerRec) :
    b ∈ insertSorted l x ↔ b ∈ l ∨ b = x := by
  induction l with
  | nil => simp [insertSorted_nil]
  | cons a t ih =>
    rw [insertSorted_cons]
    by_cases h : a.priority < x.priority
    · simp [h]
      tauto
    · simp [h, ih]
      tauto

/-- Helper: `insertSorted` preserves bucket order when the inserted
record carries a fresh (largest) id: it goes after all equal-priority
entries and before all strictly-lower ones. -/
theorem insertSorted_ordered (l : List EventListenerRec) (x : EventListenerRec)
    (hord : OrderedBucket l) (hid : ∀ a ∈ l, a.id < x.id) :
    OrderedBucket (insertSorted l x) := by
  induction l with
  | nil =>
    simp [insertSorted_nil, OrderedBucket]
  | cons a t ih =>
    rw [insertSorted_cons]
    rw [OrderedBucket, List.pairwise_cons] at hord
    obtain ⟨ha, ht⟩ := hord
    by_cases h : a.priority < x.priority
    · rw [if_pos h]
      refine List.Pairwise.cons ?_ (List.Pairwise.cons ha ht)
      intro b hb
      rcases List.mem_cons.mp hb with hb | hb
      · subst hb
        exact Or.inl h
      · rcases ha b hb with h2 | h2
        · exact Or.inl (h2.trans h)
        · exact Or.inl (h2.1 ▸ h)
    · rw [if_neg h]
      refine List.Pairwise.cons ?_ (ih ht (fun b hb => hid b (List.mem_cons_of_mem a hb)))
      intro b hb
      rcases (mem_insertSorted t x b).mp hb with hb | hb
      · exact ha b hb
      · subst hb
        rcases lt_or_eq_of_le (not_lt.mp h) with h2 | h2
        · exact Or.inl h2
        · exact Or.inr ⟨h2.symm, hid a (List.mem_cons_self a t)⟩

/-- Helper: updating a key finds it afterwards. -/
theorem alookup_aset_self [BEq κ] [LawfulBEq κ] (l : List (κ × β)) (k : κ) (v : β) :
    alookup (aset k v l) k = some v := by
  induction l with
  | nil => simp [aset, alookup]
  | cons p t ih =>
    by_cases h : p.1 == k
    · simp [aset, alookup, h]
    · cases p with
      | mk k1 v1 =>
        simp only [aset]
        rw [if_neg (by simpa using h)]
        simp only [alookup, List.find?] at ih ⊢
        rw [Bool.not_eq_true] at h
        rw [h]
        exact ih

/-- Helper: updating one key leaves the others alone. -/
theorem alookup_aset_ne [BEq κ] [LawfulBEq κ] (l : List (κ × β)) (k k2 : κ) (v : β)
    (h : ¬ k2 = k) :
    alookup (aset k v l) k2 = alookup l k2 := by
  induction l with
  | nil =>
    simp only [aset, alookup, List.find?]
    have : ¬ (k == k2) := by simp; intro he; exact h he.symm
    simp [this]
  | cons p t ih =>
    cases p with
    | mk k1 v1 =>
      by_cases h1 : k1 == k
      · simp only [aset, if_pos h1]
        simp only [alookup, List.find?]
        have hk : (k == k2) = false := by simp; intro he; exact h he.symm
        have hk1 : (k1 == k2) = false := by
          have := eq_of_beq h1
          subst this
          exact hk
        rw [hk, hk1]
      · simp only [aset, if_neg h1]
        simp only [alookup, List.find?] at ih ⊢
        cases hc : k1 == k2
        · simp only [cond_false]
          exact ih
        · simp only [cond_true]

/-- Helper: lookup across an append tries the left list first. -/
theorem alookup_append [BEq κ] (l1 l2 : List (κ × β)) (k : κ) :
    alookup (l1 ++ l2) k =
      match alookup l1 k with
      | some v => some v
      | none => alookup l2 k := by
  induction l1 with
  | nil => simp [alookup]
  | cons p t ih =>
    simp only [alookup, List.find?, List.cons_append] at ih ⊢
    cases hc : p.1 == k
    · simpa using ih
    · simp

/-- Helper: a bucket of the registry after `registryInsert` is either
an untouched bucket of the old registry, or the target bucket, whose
listener list is `insertSorted` of the old list (empty when the bucket
is freshly created). -/
theorem bucketAt_registryInsert (ns0 : Namespaces) (nsp eventName : String)
    (rec1 : EventListenerRec) (thr : Bool) (nsp2 ev2 : String) (bk2 : Bucket)
    (h : bucketAt (registryInsert ns0 nsp eventName rec1 thr) nsp2 ev2 = some bk2) :
    bucketAt ns0 nsp2 ev2 = some bk2 ∨
    (nsp2 = nsp ∧ ev2 = eventName ∧
      ∃ base : List EventListenerRec,
        bk2.listeners = insertSorted base rec1 ∧
        (base = [] ∨ ∃ bk0, bucketAt ns0 nsp2 ev2 = some bk0 ∧
          base = bk0.listeners)) := by
  by_cases hns : nsp2 = nsp
  · subst hns
    rcases hns0 : alookup ns0 nsp2 with _ | evs
    · have hne : Option.isNone (alookup ns0 nsp2) = true := by rw [hns0]; rfl
      rw [bucketAt, registryInsert] at h
      simp only [hne, if_pos] at h
      rw [alookup_aset_self] at h
      simp only [Option.bind] at h
      have hevs0 : alookup (ns0 ++ [(nsp2, ([] : EventNamespace))]) nsp2 = some [] := by
        rw [alookup_append, hns0]
        simp [alookup, List.find?]
      rw [hevs0] at h
      simp only [Option.getD] at h
      by_cases hev : ev2 = eventName
      · subst hev
        rw [alookup_aset_self] at h
        injection h with h
        subst h
        refine Or.inr ⟨rfl, rfl, [], ?_, Or.inl rfl⟩
        simp [alookup, List.find?]
      · rw [alookup_aset_ne _ _ _ _ hev] at h
        have hfalse : (eventName == ev2) = false := by
          simp
          intro he
          exact hev he.symm
        simp [alookup, List.find?, hfalse] at h
    · have hne : Option.isNone (alookup ns0 nsp2) = false := by rw [hns0]; rfl
      rw [bucketAt, registryInsert] at h
      simp only [hne, Bool.false_eq_true, if_false] at h
      rw [alookup_aset_self] at h
      simp only [Option.bind] at h
      rw [hns0] at h
      simp only [Option.getD] at h
      by_cases hev : ev2 = eventName
      · subst hev
        rw [alookup_aset_self] at h
        injection h with h
        subst h
        rcases halo : alookup evs ev2 with _ | b0
        · refine Or.inr ⟨rfl, rfl, [], ?_, Or.inl rfl⟩
          simp only [Option.isNone_none, if_true]
          rw [alookup_append, halo]
          simp [alookup, List.find?]
        · refine Or.inr ⟨rfl, rfl, b0.listeners, ?_, Or.inr ⟨b0, ?_, rfl⟩⟩
          · simp [halo]
          · rw [bucketAt, hns0]
            simp only [Option.bind]
            exact halo
      · rw [alookup_aset_ne _ _ _ _ hev] at h
        rcases halo : alookup evs eventName with _ | b0
        · have hno : Option.isNone (alookup evs eventName) = true := by rw [halo]; rfl
          simp only [hno, if_pos] at h
          rw [alookup_append] at h
          rcases ha2 : alookup evs ev2 with _ | bv
          · rw [ha2] at h
            simp only [alookup, List.find?] at h
            have : (eventName == ev2) = false := by
              simp
              intro he
              exact hev he.symm
            rw [this] at h
            simp at h
          · rw [ha2] at h
            simp only [] at h
            injection h with h
            subst h
            left
            rw [bucketAt, hns0]
            simp only [Option.bind]
            exact ha2
        · have hno : Option.isNone (alookup evs eventName) = false := by rw [halo]; rfl
          simp only [hno, Bool.false_eq_true, if_false] at h
          left
          rw [bucketAt, hns0]
          simp only [Option.bind]
          exact h
  · rw [bucketAt, registryInsert] at h
    rw [alookup_aset_ne _ _ _ _ hns] at h
    rcases hns0 : alookup ns0 nsp with _ | evs
    · have hne : Option.isNone (alookup ns0 nsp) = true := by rw [hns0]; rfl
      simp only [hne, if_pos] at h
      rw [alookup_append] at h
      rcases ha2 : alookup ns0 nsp2 with _ | evv
      · rw [ha2] at h
        simp only [alookup, List.find?] at h
        have : (nsp == nsp2) = false := by
          simp
          intro he
          exact hns he.symm
        rw [this] at h
        simp at h
      · rw [ha2] at h
        simp only [] at h
        left
        rw [bucketAt, ha2]
        exact h
    · have hne : Option.isNone (alookup ns0 nsp) = false := by rw [hns0]; rfl
      simp only [hne, Bool.false_eq_true, if_false] at h
      left
      rw [bucketAt]
      exact h

/-- Helper: one registration keeps every bucket ordered and keeps all
ids below the (incremented) fresh-id counter. -/
theorem onAdd_registryOrdered (s : EmitterState) (e : String) (uid : Nat)
    (opt : OnOption) (h : RegistryOrdered s) :
    RegistryOrdered (onAdd s e uid opt) := by
  intro nsp ev bk hb
  have hnext : (onAdd s e uid opt).nextId = s.nextId + 1 := rfl
  rw [hnext]
  have hb2 : bucketAt (registryInsert s.eventNamespaces
      (parseEvent e (getPrioritizedValue s.globalSeparator opt.separator)).1
      (parseEvent e (getPrioritizedValue s.globalSeparator opt.separator)).2
      ⟨(match opt.throttle with
        | some d => StoredListener.throttled uid
            (parseEvent e (getPrioritizedValue s.globalSeparator opt.separator)).2 d
        | none => match opt.debounce with
          | some d => StoredListener.debounced uid
              (parseEvent e (getPrioritizedValue s.globalSeparator opt.separator)).2 d
          | none => StoredListener.plain uid),
        opt.priority.getD 0,
        ⟨getPrioritizedValue s.globalSeparator opt.separator, e⟩,
        opt.concurrency, s.nextId⟩
      opt.throttle.isSome) nsp ev = some bk := hb
  rcases bucketAt_registryInsert _ _ _ _ _ _ _ _ hb2 with hold | ⟨h1, h2, base, hins, hbase⟩
  · obtain ⟨ho, hi⟩ := h nsp ev bk hold
    exact ⟨ho, fun r hr => Nat.lt_succ_of_lt (hi r hr)⟩
  · rcases hbase with hnil | ⟨bk0, hbk0, hbl⟩
    · subst hnil
      rw [insertSorted_nil] at hins
      constructor
      · rw [hins]
        exact List.pairwise_singleton _ _
      · intro r hr
        rw [hins] at hr
        rcases List.mem_singleton.mp hr with h
        subst h
        exact Nat.lt_succ_self _
    · obtain ⟨ho, hi⟩ := h nsp ev bk0 hbk0
      subst hbl
      constructor
      · rw [hins]
        exact insertSorted_ordered _ _ ho (fun a ha => hi a ha)
      · intro r hr
        rw [hins] at hr
        rcases (mem_insertSorted _ _ _).mp hr with hr | hr
        · exact Nat.lt_succ_of_lt (hi r hr)
        · subst hr
          exact Nat.lt_succ_self _

/-- Helper: any registration sequence applied to a fresh emitter keeps
the registry invariant. -/
theorem applyRegs_registryOrdered (regs : List RegCall) :
    RegistryOrdered (applyRegs regs) := by
  have hgen : ∀ (rs : List RegCall) (s : EmitterState), RegistryOrdered s →
      RegistryOrdered (rs.foldl (fun s r => onAdd s r.event r.uid r.opt) s) := by
    intro rs
    induction rs with
    | nil => intro s hs; exact hs
    | cons r rest ih =>
      intro s hs
      exact ih _ (onAdd_registryOrdered s r.event r.uid r.opt hs)
  refine hgen regs initialState ?_
  intro nsp ev bk hb
  simp [initialState, bucketAt, alookup] at hb

/-- C6: after any sequence of registrations on a fresh emitter, every
bucket is ordered by descending priority with equal-priority records in
registration order; and in the concrete scenario — L1(priority 0),
L2(priority 2), L3(priority 1) registered in that order on
`"priorityEvent"` — a single emit invokes them as L2, L3, L1. -/
theorem priority_order_claim :
    (∀ (regs : List RegCall) (nsp ev : String) (bk : Bucket),
      bucketAt (applyRegs regs).eventNamespaces nsp ev = some bk →
      OrderedBucket bk.listeners) ∧
    emitCalls envOk 0 1 stPrio "priorityEvent" [] =
      [(2, ["priorityEvent"]), (3, ["priorityEvent"]), (1, ["priorityEvent"])] := by
  constructor
  · intro regs nsp ev bk hb
    exact (applyRegs_registryOrdered regs nsp ev bk hb).1
  · decide

/-- Witness for C6: the bucket produced by the three-registration
scenario exists and is ordered. -/
theorem priority_order_claim_witness :
    bucketAt (applyRegs regsPrio).eventNamespaces "" "priorityEvent" =
      some ((bucketAt (applyRegs regsPrio).eventNamespaces "" "priorityEvent").getD
        ⟨[], false⟩) ∧
    OrderedBucket ((bucketAt (applyRegs regsPrio).eventNamespaces ""
      "priorityEvent").getD ⟨[], false⟩).listeners :=
  ⟨by decide, priority_order_claim.1 regsPrio "" "priorityEvent" _ (by decide)⟩

/-- Helper: running a stored listener never touches the pending
queue. -/
theorem invokeStored_queue (l : StoredListener) (recId : Nat) (cargs : List Value)
    (now : Int) (env : CbEnv) (s : EmitterState) :
    (invokeStored l recId cargs now env s).1.listenerQueue = s.listenerQueue := by
  cases l with
  | plain uid => rfl
  | throttled uid regEv delay =>
    dsimp only [invokeStored]
    split <;> rfl
  | debounced uid regEv delay => rfl

/-- Helper: the admitted path never touches the pending queue. -/
theorem admittedStep_queue (env : CbEnv) (now : Int) (l : StoredListener) (id : Nat)
    (ev : String) (args : List Value) (s : EmitterState) :
    (admittedStep env now l id ev args s).1.listenerQueue = s.listenerQueue := by
  dsimp only [admittedStep]
  rcases hres : (invokeStored l id (ev :: args) now env { s with executingListeners := aset id (lookupD s.executingListeners id 0 + 1) s.executingListeners }).2.2 with _ | m <;>
    simp only [hres] <;>
    exact invokeStored_queue l id (ev :: args) now env _

/-- Helper: with an empty queue, an admitted `processListener` call is
exactly the admitted path (the `finally` finds nothing to dequeue). -/
theorem processListener_no_queue (env : CbEnv) (now : Int) (fuel : Nat)
    (l : StoredListener) (id : Nat) (conc : Option Nat) (thrFlag : Bool)
    (ev : String) (args : List Value) (s : EmitterState)
    (hq : s.listenerQueue = [])
    (hadm : admitLt (lookupD s.executingListeners id 0) conc = true) :
    processListener env now fuel l id conc thrFlag ev args s =
      .ok ((admittedStep env now l id ev args s).1,
        .attempt id :: (admittedStep env now l id ev args s).2) := by
  have hqe : (admittedStep env now l id ev args s).1.listenerQueue = [] := by
    rw [admittedStep_queue, hq]
  cases fuel with
  | zero =>
    rw [processListener.eq_def]
    dsimp only
    rw [if_pos hadm]
  | succ n =>
    rw [processListener.eq_def]
    dsimp only
    rw [if_pos hadm, hqe]
    rfl

/-- Helper: an admitted plain listener invokes the user callback with
exactly the event name followed by the emit arguments. -/
theorem admittedStep_plain_calls (env : CbEnv) (now : Int) (uid id : Nat)
    (ev : String) (args : List Value) (s : EmitterState) :
    userCallsOf (admittedStep env now (.plain uid) id ev args s).2 =
      [(uid, ev :: args)] := by
  dsimp only [admittedStep, invokeStored]
  rcases henv : env uid (ev :: args) with _ | m <;> simp [henv, userCallsOf]

/-- Helper: an admitted throttle-wrapped listener whose delay has
elapsed hands the user callback the registration-time event name *in
addition to* the emitted event name: `(regEv, ev, ...args)`. -/
theorem admittedStep_throttled_calls (env : CbEnv) (now : Int) (uid id : Nat)
    (regEv ev : String) (args : List Value) (delay : Int) (s : EmitterState)
    (ht : delay ≤ now - lookupD s.throttleState id 0) :
    userCallsOf (admittedStep env now (.throttled uid regEv delay) id ev args s).2 =
      [(uid, regEv :: ev :: args)] := by
  dsimp only [admittedStep, invokeStored]
  rw [if_pos ht]
  rcases henv : env uid (regEv :: ev :: args) with _ | m <;> simp [henv, userCallsOf]

/-- Helper: an admitted debounce-wrapped listener schedules the timer
with `(regEv, ev, ...args)` and invokes nothing now. -/
theorem admittedStep_debounced_calls (env : CbEnv) (now : Int) (uid id : Nat)
    (regEv ev : String) (args : List Value) (delay : Int) (s : EmitterState) :
    userCallsOf (admittedStep env now (.debounced uid regEv delay) id ev args s).2 = [] ∧
    debSchedOf (admittedStep env now (.debounced uid regEv delay) id ev args s).2 =
      [(uid, regEv :: ev :: args)] := by
  dsimp only [admittedStep, invokeStored]
  simp [userCallsOf, debSchedOf]

/-- Helper: `attempt` entries carry no user calls. -/
theorem userCallsOf_cons_attempt (i : Nat) (t : List TraceEv) :
    userCallsOf (TraceEv.attempt i :: t) = userCallsOf t := by
  simp [userCallsOf]

/-- Helper: `attempt` entries carry no scheduled debounce calls. -/
theorem debSchedOf_cons_attempt (i : Nat) (t : List TraceEv) :
    debSchedOf (TraceEv.attempt i :: t) = debSchedOf t := by
  simp [debSchedOf]

/-- C4 (amended): for every admitted invocation (empty pending queue,
admission test passed), a *plain* listener's user callback receives
exactly `(eventName, ...args)`; a *throttle-wrapped* listener's user
callback receives the registration-time event name prepended
additionally — `(regEventName, eventName, ...args)` — and a
*debounce-wrapped* listener schedules its timer with that same
duplicated-leading-argument list.  The original claim's "no extra or
duplicated leading arguments" holds only for unwrapped listeners. -/
theorem admitted_invocation_arguments (env : CbEnv) (now : Int) (fuel : Nat)
    (id uid : Nat) (conc : Option Nat) (thrFlag : Bool) (ev regEv : String)
    (args : List Value) (delay : Int) (s : EmitterState)
    (hq : s.listenerQueue = [])
    (hadm : admitLt (lookupD s.executingListeners id 0) conc = true) :
    (∃ s2 tr, processListener env now fuel (.plain uid) id conc thrFlag ev args s =
        .ok (s2, tr) ∧ userCallsOf tr = [(uid, ev :: args)]) ∧
    (delay ≤ now - lookupD s.throttleState id 0 →
      ∃ s2 tr, processListener env now fuel (.throttled uid regEv delay) id conc
          thrFlag ev args s = .ok (s2, tr) ∧
        userCallsOf tr = [(uid, regEv :: ev :: args)]) ∧
    (∃ s2 tr, processListener env now fuel (.debounced uid regEv delay) id conc
        thrFlag ev args s = .ok (s2, tr) ∧
      userCallsOf tr = [] ∧ debSchedOf tr = [(uid, regEv :: ev :: args)]) := by
  refine ⟨?_, ?_, ?_⟩
  · rw [processListener_no_queue env now fuel _ id conc thrFlag ev args s hq hadm]
    refine ⟨_, _, rfl, ?_⟩
    rw [userCallsOf_cons_attempt]
    exact admittedStep_plain_calls env now uid id ev args s
  · intro ht
    rw [processListener_no_queue env now fuel _ id conc thrFlag ev args s hq hadm]
    refine ⟨_, _, rfl, ?_⟩
    rw [userCallsOf_cons_attempt]
    exact admittedStep_throttled_calls env now uid id regEv ev args delay s ht
  · rw [processListener_no_queue env now fuel _ id conc thrFlag ev args s hq hadm]
    refine ⟨_, _, rfl, ?_, ?_⟩
    · rw [userCallsOf_cons_attempt]
      exact (admittedStep_debounced_calls env now uid id regEv ev args delay s).1
    · rw [debSchedOf_cons_attempt]
      exact (admittedStep_debounced_calls env now uid id regEv ev args delay s).2

/-- Witness for the amended C4: a fresh emitter, listener id 0,
callback 5 on `"evt"`, emitted argument `"payload"`, clock 1000,
delay 100. -/
theorem admitted_invocation_arguments_witness :
    initialState.listenerQueue = [] ∧
    admitLt (lookupD initialState.executingListeners 0 0) none = true ∧
    (100 : Int) ≤ 1000 - lookupD initialState.throttleState 0 0 ∧
    (∃ s2 tr, processListener envOk 1000 1 (.plain 5) 0 none false "evt" ["payload"]
        initialState = .ok (s2, tr) ∧ userCallsOf tr = [(5, ["evt", "payload"])]) ∧
    (∃ s2 tr, processListener envOk 1000 1 (.throttled 5 "evt" 100) 0 none false
        "evt" ["payload"] initialState = .ok (s2, tr) ∧
      userCallsOf tr = [(5, ["evt", "evt", "payload"])]) ∧
    (∃ s2 tr, processListener envOk 1000 1 (.debounced 5 "evt" 100) 0 none false
        "evt" ["payload"] initialState = .ok (s2, tr) ∧
      userCallsOf tr = [] ∧ debSchedOf tr = [(5, ["evt", "evt", "payload"])]) :=
  ⟨rfl, rfl, by decide,
    (admitted_invocation_arguments envOk 1000 1 0 5 none false "evt" "evt"
      ["payload"] 100 initialState rfl rfl).1,
    (admitted_invocation_arguments envOk 1000 1 0 5 none false "evt" "evt"
      ["payload"] 100 initialState rfl rfl).2.1 (by decide),
    (admitted_invocation_arguments envOk 1000 1 0 5 none false "evt" "evt"
      ["payload"] 100 initialState rfl rfl).2.2⟩

/-- Helper: counter update then read. -/
theorem lookupD_aset_self (l : List (Nat × Nat)) (k v d : Nat) :
    lookupD (aset k v l) k d = v := by
  rw [lookupD, alookup_aset_self]
  rfl

/-- Helper: counter update leaves other ids alone. -/
theorem lookupD_aset_ne (l : List (Nat × Nat)) (k k2 v d : Nat) (h : ¬ k2 = k) :
    lookupD (aset k v l) k2 d = lookupD l k2 d := by
  rw [lookupD, alookup_aset_ne _ _ _ _ h]
  rfl

/-- Helper: `findIndex` + `splice(i, 1)` removes exactly the first
element satisfying the predicate; everything before it fails the
predicate, everything else keeps its order. -/
theorem extractFirstBy_some {p : α → Bool} :
    ∀ {q : List α} {e : α} {q2 : List α}, extractFirstBy p q = some (e, q2) →
    p e = true ∧ ∃ l1 l2, q = l1 ++ e :: l2 ∧ q2 = l1 ++ l2 ∧
      ∀ x ∈ l1, p x = false := by
  intro q
  induction q with
  | nil => intro e q2 h; exact absurd h (by simp [extractFirstBy])
  | cons x t ih =>
    intro e q2 h
    by_cases hp : p x
    · rw [extractFirstBy, if_pos hp] at h
      injection h with h
      injection h with h1 h2
      subst h1
      subst h2
      exact ⟨hp, [], t, rfl, rfl, by simp⟩
    · rw [extractFirstBy, if_neg hp] at h
      rcases hrec : extractFirstBy p t with _ | ⟨e0, q0⟩
      · rw [hrec] at h
        simp at h
      · rw [hrec] at h
        simp only [Option.map] at h
        injection h with h
        injection h with h1 h2
        subst h1
        obtain ⟨hpe, l1, l2, hq, hq2, hl1⟩ := ih hrec
        refine ⟨hpe, x :: l1, l2, by rw [hq]; rfl, by rw [← h2, hq2]; rfl, ?_⟩
        intro y hy
        rcases List.mem_cons.mp hy with hy | hy
        · subst hy
          exact Bool.not_eq_true _ ▸ (by simpa using hp)
        · exact hl1 y hy

/-- Helper: a successful lookup is a member. -/
theorem alookup_mem [BEq κ] [LawfulBEq κ] {l : List (κ × β)} {k : κ} {v : β}
    (h : alookup l k = some v) : (k, v) ∈ l := by
  rw [alookup] at h
  rcases hf : l.find? (fun p => p.1 == k) with _ | p
  · rw [hf] at h
    simp at h
  · rw [hf] at h
    simp only [Option.map] at h
    injection h with h
    have hm := List.mem_of_find?_eq_some hf
    have hp := List.find?_some hf
    have : p.1 = k := by simpa using hp
    have : p = (k, v) := by
      cases p
      simp_all
    rw [← this]
    exact hm

/-- Helper: the listeners of a dispatch group are records of the
registry. -/
theorem mem_groupOf {ns : Namespaces} {nsp ev sep : String}
    {rb : EventListenerRec × Bool} (h : rb ∈ groupOf ns nsp ev sep) :
    rb.1 ∈ recordsOf ns := by
  rw [groupOf] at h
  rcases hb : bucketAt ns nsp ev with _ | bk
  · rw [hb] at h
    simp at h
  · rw [hb] at h
    obtain ⟨r, hr, hrb⟩ := List.mem_map.mp h
    have hrl : r ∈ bk.listeners := List.mem_of_mem_filter hr
    rw [bucketAt] at hb
    rcases hns : alookup ns nsp with _ | evs
    · rw [hns] at hb
      simp at hb
    · rw [hns] at hb
      simp only [Option.bind] at hb
      have h1 := alookup_mem hns
      have h2 := alookup_mem hb
      rw [recordsOf]
      rw [← hrb]
      refine List.mem_flatMap.mpr ⟨(nsp, evs), h1, ?_⟩
      exact List.mem_flatMap.mpr ⟨(ev, bk), h2, hrl⟩

/-- Helper: every matched listener is a record of the registry. -/
theorem matched_mem {em : EmitterState} {event : String}
    {rb : EventListenerRec × Bool} (h : rb ∈ (matchedOf em event).2) :
    rb.1 ∈ recordsOf em.eventNamespaces := by
  rw [matchedOf] at h
  split at h
  · simp only [List.append_assoc, List.mem_append] at h
    rcases h with h | h | h | h
    · exact mem_groupOf h
    · split at h
      · exact mem_groupOf h
      · simp at h
    · exact mem_groupOf h
    · exact mem_groupOf h
  · simp at h

/-- Helper: admitting (or enqueueing) one matched listener preserves
the task-model invariant: the check-then-increment admission never
pushes a counter over its cap. -/
theorem admitOne_inv {em : EmitterState} {st : DState} {r : EventListenerRec}
    (tag : Nat) (stepsOf : Nat → Nat)
    (hcons : ConsistentConc em.eventNamespaces)
    (hr : r ∈ recordsOf em.eventNamespaces)
    (hinv : DInv em st) : DInv em (admitOne tag stepsOf st r) := by
  obtain ⟨hb, hq⟩ := hinv
  rw [admitOne]
  by_cases hadm : admitLt (lookupD st.executing r.id 0) r.concurrency = true
  · rw [if_pos hadm]
    constructor
    · intro r2 hr2 c hc
      by_cases hid : r2.id = r.id
      · rw [hid, lookupD_aset_self]
        have hcc := hcons r2 hr2 r hr hid
        rw [hc] at hcc
        rw [admitLt.eq_def, ← hcc] at hadm
        simp at hadm
        exact hadm
      · rw [lookupD_aset_ne _ _ _ _ _ hid]
        exact hb r2 hr2 c hc
    · intro e he r2 hr2 hid
      exact hq e he r2 hr2 hid
  · rw [if_neg hadm]
    constructor
    · intro r2 hr2 c hc
      exact hb r2 hr2 c hc
    · intro e he r2 hr2 hid
      rcases List.mem_append.mp he with he | he
      · exact hq e he r2 hr2 hid
      · rcases List.mem_singleton.mp he with he
        subst he
        exact hcons r2 hr2 r hr hid

/-- Helper: the synchronous phase of an emit preserves the task-model
invariant. -/
theorem applyEmit_inv {em : EmitterState} {st : DState} (event : String)
    (stepsOf : Nat → Nat)
    (hcons : ConsistentConc em.eventNamespaces)
    (hinv : DInv em st) : DInv em (applyEmit em event stepsOf st) := by
  rw [applyEmit]
  have hstep : ∀ (ml : List (EventListenerRec × Bool)) (st0 : DState),
      (∀ rb ∈ ml, rb.1 ∈ recordsOf em.eventNamespaces) → DInv em st0 →
      DInv em (ml.foldl (fun acc rb => admitOne st.nextTag stepsOf acc rb.1) st0) := by
    intro ml
    induction ml with
    | nil => intro st0 hsub h0; exact h0
    | cons rb rest ih =>
      intro st0 hsub h0
      exact ih _ (fun x hx => hsub x (List.mem_cons_of_mem rb hx))
        (admitOne_inv st.nextTag stepsOf hcons (hsub rb (List.mem_cons_self rb rest)) h0)
  refine hstep _ _ (fun rb hrb => matched_mem hrb) ?_
  obtain ⟨hb, hq⟩ := hinv
  exact ⟨fun r2 hr2 c hc => hb r2 hr2 c hc, fun e he r2 hr2 hid => hq e he r2 hr2 hid⟩

/-- Helper: completion (decrement, dequeue, re-admission) preserves
the task-model invariant. -/
theorem applyComplete_inv {em : EmitterState} {st : DState} (i : Nat) (a : AInv)
    (k : Nat) (hinv : DInv em st) : DInv em (applyComplete i a k st) := by
  obtain ⟨hb, hq⟩ := hinv
  have hb1 : ∀ r2 ∈ recordsOf em.eventNamespaces, ∀ c, r2.concurrency = some c →
      lookupD (aset a.id (lookupD st.executing a.id 0 - 1) st.executing) r2.id 0 ≤ c := by
    intro r2 hr2 c hc
    by_cases hid : r2.id = a.id
    · rw [hid, lookupD_aset_self]
      exact le_trans (Nat.sub_le _ _) (hid ▸ hb r2 hr2 c hc)
    · rw [lookupD_aset_ne _ _ _ _ _ hid]
      exact hb r2 hr2 c hc
  rw [applyComplete]
  dsimp only
  rcases hex : extractFirstBy (fun t => t.id == a.id) st.queue with _ | ⟨e, rest⟩
  · simp only [hex]
    exact ⟨fun r2 hr2 c hc => hb1 r2 hr2 c hc,
      fun e2 he2 r2 hr2 hid => hq e2 he2 r2 hr2 hid⟩
  · simp only [hex]
    obtain ⟨hpe, l1, l2, hdec, hrest, hl1⟩ := extractFirstBy_some hex
    have heMem : e ∈ st.queue := by
      rw [hdec]
      exact List.mem_append_right _ (List.mem_cons_self _ _)
    have hrestMem : ∀ x ∈ rest, x ∈ st.queue := by
      intro x hx
      rw [hrest] at hx
      rw [hdec]
      rcases List.mem_append.mp hx with hx | hx
      · exact List.mem_append_left _ hx
      · exact List.mem_append_right _ (List.mem_cons_of_mem _ hx)
    by_cases hadm : admitLt
        (lookupD (aset a.id (lookupD st.executing a.id 0 - 1) st.executing) e.id 0)
        e.concurrency = true
    · rw [if_pos hadm]
      constructor
      · intro r2 hr2 c hc
        by_cases hid : r2.id = e.id
        · rw [hid, lookupD_aset_self]
          have hcc := hq e heMem r2 hr2 hid
          rw [hc] at hcc
          rw [admitLt.eq_def, ← hcc] at hadm
          simp at hadm
          exact hadm
        · rw [lookupD_aset_ne _ _ _ _ _ hid]
          exact hb1 r2 hr2 c hc
      · intro e2 he2 r2 hr2 hid
        exact hq e2 (hrestMem e2 he2) r2 hr2 hid
    · rw [if_neg hadm]
      constructor
      · intro r2 hr2 c hc
        exact hb1 r2 hr2 c hc
      · intro e2 he2 r2 hr2 hid
        rcases List.mem_append.mp he2 with he2 | he2
        · exact hq e2 (hrestMem e2 he2) r2 hr2 hid
        · rcases List.mem_singleton.mp he2 with he2
          subst he2
          exact hq e2 heMem r2 hr2 hid

/-- Helper: every scheduler step preserves the task-model invariant. -/
theorem bstep_inv {em : EmitterState} {s s2 : DState}
    (hcons : ConsistentConc em.eventNamespaces)
    (hstep : BStep em s s2) (hinv : DInv em s) : DInv em s2 := by
  cases hstep with
  | emitStart event stepsOf st => exact applyEmit_inv event stepsOf hcons hinv
  | tick i a st h1 h2 =>
    obtain ⟨hb, hq⟩ := hinv
    exact ⟨fun r2 hr2 c hc => hb r2 hr2 c hc,
      fun e he r2 hr2 hid => hq e he r2 hr2 hid⟩
  | complete i a k st h1 h2 => exact applyComplete_inv i a k hinv

/-- Helper: the task-model invariant holds in every reachable state. -/
theorem breach_inv {em : EmitterState} {s : DState}
    (hcons : ConsistentConc em.eventNamespaces)
    (hreach : BReach em DState.init s) : DInv em s := by
  induction hreach with
  | refl =>
    constructor
    · intro r2 hr2 c hc
      show lookupD ([] : List (Nat × Nat)) r2.id 0 ≤ c
      exact Nat.zero_le c
    · intro e he
      exact absurd he (by simp [DState.init])
  | tail hsteps hstep ih => exact bstep_inv hcons hstep ih

/-- Helper: admission only ever appends to the pending queue. -/
theorem admitOne_queue_extends (tag : Nat) (stepsOf : Nat → Nat) (st : DState)
    (r : EventListenerRec) : st.queue <+: (admitOne tag stepsOf st r).queue := by
  rw [admitOne]
  by_cases hadm : admitLt (lookupD st.executing r.id 0) r.concurrency = true
  · simp only [if_pos hadm]
    exact List.prefix_refl _
  · simp only [if_neg hadm]
    exact List.prefix_append _ _

/-- Helper: an emit's synchronous phase only ever appends to the
pending queue. -/
theorem applyEmit_queue_extends (em : EmitterState) (event : String)
    (stepsOf : Nat → Nat) (st : DState) :
    st.queue <+: (applyEmit em event stepsOf st).queue := by
  have hstep : ∀ (ml : List (EventListenerRec × Bool)) (st0 : DState),
      st0.queue <+: (ml.foldl (fun acc rb => admitOne st.nextTag stepsOf acc rb.1) st0).queue := by
    intro ml
    induction ml with
    | nil => intro st0; exact List.prefix_refl _
    | cons rb rest ih =>
      intro st0
      exact (admitOne_queue_extends st.nextTag stepsOf st0 rb.1).trans (ih _)
  rw [applyEmit]
  have h1 : ({ st with pendings := st.pendings ++ [(st.nextTag, 0)], nextTag := st.nextTag + 1 } : DState).queue = st.queue := rfl
  rw [← h1]
  exact hstep (matchedOf em event).2 _

/-- Helper: a scheduler step either leaves the existing queue entries
in place (as a prefix) or is the completion of a zero-remaining
invocation — the only step that consumes queue entries, via the
first-matching-id extraction. -/
theorem bstep_queue_shape (em : EmitterState) (s s2 : DState)
    (hstep : BStep em s s2) :
    (s.queue <+: s2.queue) ∨
    ∃ i a k, s.active.get? i = some a ∧ a.remaining = 0 ∧
      s2 = applyComplete i a k s := by
  cases hstep with
  | emitStart event stepsOf => exact Or.inl (applyEmit_queue_extends em event stepsOf s)
  | tick i a st h1 h2 => exact Or.inl (List.prefix_refl _)
  | complete i a k st h1 h2 => exact Or.inr ⟨i, a, k, h1, h2, rfl⟩

/-- C5: (1) in every task state reachable under any interleaving of
emits, a listener with finite concurrency `c` never has more than `c`
invocations in flight; (2) the dequeue operation always removes the
*earliest* queued invocation of the given listener id (FIFO by id);
(3) queue entries are consumed only by the completion step of an
invocation, so a deferred invocation starts only after a prior
invocation of that id completes. -/
theorem concurrency_cap_fifo :
    (∀ (em : EmitterState) (s : DState), ConsistentConc em.eventNamespaces →
      BReach em DState.init s →
      ∀ r ∈ recordsOf em.eventNamespaces, ∀ c, r.concurrency = some c →
        lookupD s.executing r.id 0 ≤ c) ∧
    (∀ (q : List BQEntry) (idv : Nat) (e : BQEntry) (q2 : List BQEntry),
      extractFirstBy (fun t => t.id == idv) q = some (e, q2) →
      e.id = idv ∧ ∃ l1 l2, q = l1 ++ e :: l2 ∧ q2 = l1 ++ l2 ∧
        ∀ x ∈ l1, ¬ x.id = idv) ∧
    (∀ (em : EmitterState) (s s2 : DState), BStep em s s2 →
      (s.queue <+: s2.queue) ∨
      ∃ i a k, s.active.get? i = some a ∧ a.remaining = 0 ∧
        s2 = applyComplete i a k s) := by
  refine ⟨?_, ?_, bstep_queue_shape⟩
  · intro em s hcons hreach r hr c hc
    exact (breach_inv hcons hreach).1 r hr c hc
  · intro q idv e q2 hex
    obtain ⟨hpe, l1, l2, hq, hq2, hl1⟩ := extractFirstBy_some hex
    refine ⟨by simpa using hpe, l1, l2, hq, hq2, ?_⟩
    intro x hx
    have := hl1 x hx
    simpa using this

/-- Witness for C5: a consistent one-listener registry with cap 2 at
the initial state; a concrete three-entry queue for the FIFO part; a
concrete emit step for the queue-shape part. -/
theorem concurrency_cap_fifo_witness :
    ConsistentConc emW5.eventNamespaces ∧
    lookupD DState.init.executing 0 0 ≤ 2 ∧
    (extractFirstBy (fun t => t.id == 5)
        ([⟨3, none, 0⟩, ⟨5, none, 1⟩, ⟨5, some 1, 2⟩] : List BQEntry) =
      some (⟨5, none, 1⟩, [⟨3, none, 0⟩, ⟨5, some 1, 2⟩])) ∧
    (⟨5, none, 1⟩ : BQEntry).id = 5 ∧
    ((DState.init.queue <+: (applyEmit emW5 "w" (fun _ => 0) DState.init).queue) ∨
      ∃ i a k, DState.init.active.get? i = some a ∧ a.remaining = 0 ∧
        applyEmit emW5 "w" (fun _ => 0) DState.init = applyComplete i a k DState.init) :=
  ⟨by decide,
   concurrency_cap_fifo.1 emW5 DState.init (by decide) Relation.ReflTransGen.refl
     ⟨.plain 0, 0, ⟨".", "w"⟩, some 2, 0⟩ (by decide) 2 rfl,
   by decide,
   (concurrency_cap_fifo.2.1 ([⟨3, none, 0⟩, ⟨5, none, 1⟩, ⟨5, some 1, 2⟩] : List BQEntry)
     5 ⟨5, none, 1⟩ [⟨3, none, 0⟩, ⟨5, some 1, 2⟩] (by decide)).1,
   concurrency_cap_fifo.2.2 emW5 DState.init _ (BStep.emitStart "w" (fun _ => 0) DState.init)⟩

/-- Helper: a split never produces an empty list of parts. -/
theorem jsSplitF_ne_nil (sep : List Char) :
    ∀ (fuel : Nat) (l : List Char), jsSplitF sep fuel l ≠ [] := by
  intro fuel l
  match fuel, l with
  | 0, _ => simp [jsSplitF]
  | n + 1, [] => simp [jsSplitF]
  | n + 1, c :: rest =>
    rw [jsSplitF]
    split
    · simp
    · split <;> simp

/-- Helper: the first part of a split is a prefix of the input. -/
theorem jsSplitF_headSegment (sep : List Char) :
    ∀ (fuel : Nat) (l : List Char), l.length < fuel →
      (jsSplitF sep fuel l).headD [] <+: l := by
  intro fuel
  induction fuel with
  | zero => intro l h; exact absurd h (Nat.not_lt_zero _)
  | succ n ih =>
    intro l h
    match l with
    | [] => simp [jsSplitF]
    | c :: rest =>
      rw [jsSplitF]
      split
      · simp
      · rcases hrec : jsSplitF sep n rest with _ | ⟨r, rs⟩
        · exact absurd hrec (jsSplitF_ne_nil sep n rest)
        · simp only [hrec, List.headD_cons]
          have hlen : rest.length < n := by
            simp only [List.length_cons] at h
            omega
          have := ih rest hlen
          rw [hrec] at this
          simp only [List.headD_cons] at this
          exact List.cons_prefix_cons.mpr ⟨rfl, this⟩

/-- Helper: splitting on a separator that does not occur yields the
whole input as the single part. -/
theorem jsSplitF_no_occurrence (sep : List Char) :
    ∀ (fuel : Nat) (l : List Char), l.length < fuel → ¬ sep <:+: l →
      jsSplitF sep fuel l = [l] := by
  intro fuel
  induction fuel with
  | zero => intro l h; exact absurd h (Nat.not_lt_zero _)
  | succ n ih =>
    intro l h hocc
    match l with
    | [] => rfl
    | c :: rest =>
      rw [jsSplitF]
      have hpre : sep.isPrefixOf (c :: rest) = false := by
        rw [Bool.eq_false_iff]
        intro hp
        exact hocc ((List.isPrefixOf_iff_prefix.mp hp).isInfix)
      rw [hpre]
      simp only [Bool.false_eq_true, if_false]
      have hrest : jsSplitF sep n rest = [rest] := by
        refine ih rest ?_ ?_
        · simp only [List.length_cons] at h
          omega
        · intro hocc2
          exact hocc (List.infix_cons hocc2)
      rw [hrest]

/-- Helper: splitting on a separator that does occur yields at least
two parts. -/
theorem jsSplitF_occurrence_len (sep : List Char) (hsep : sep ≠ []) :
    ∀ (fuel : Nat) (l : List Char), l.length < fuel → sep <:+: l →
      2 ≤ (jsSplitF sep fuel l).length := by
  intro fuel
  induction fuel with
  | zero => intro l h; exact absurd h (Nat.not_lt_zero _)
  | succ n ih =>
    intro l h hocc
    match l with
    | [] => exact absurd (List.eq_nil_of_infix_nil hocc) hsep
    | c :: rest =>
      rw [jsSplitF]
      by_cases hpre : sep.isPrefixOf (c :: rest) = true
      · rw [if_pos hpre]
        rcases hrec : jsSplitF sep n (List.drop (sep.length - 1) rest) with _ | ⟨r, rs⟩
        · exact absurd hrec (jsSplitF_ne_nil sep n _)
        · simp
      · rw [if_neg hpre]
        have hocc2 : sep <:+: rest := by
          obtain ⟨t, u, htu⟩ := hocc
          match t with
          | [] =>
            exfalso
            apply hpre
            rw [List.isPrefixOf_iff_prefix]
            exact ⟨u, by simpa using htu⟩
          | c2 :: t2 =>
            have : t2 ++ sep ++ u = rest := by
              have := htu
              simp only [List.cons_append, List.cons.injEq] at this
              exact this.2
            exact ⟨t2, u, this⟩
        have hlen : rest.length < n := by
          simp only [List.length_cons] at h
          omega
        have hrec2 := ih rest hlen hocc2
        rcases hrec : jsSplitF sep n rest with _ | ⟨r, rs⟩
        · exact absurd hrec (jsSplitF_ne_nil sep n rest)
        · rw [hrec] at hrec2
          simp only [List.length_cons] at hrec2 ⊢
          simpa using hrec2

/-- Helper: joining after extending the head part. -/
theorem joinSep_cons_head (sep : List Char) (c : Char) (r : List Char)
    (rs : List (List Char)) :
    joinSep sep ((c :: r) :: rs) = c :: joinSep sep (r :: rs) := by
  cases rs with
  | nil => rfl
  | cons q rest => simp [joinSep]

/-- Helper: joining the parts with the separator reconstructs the
input: the split is a decomposition, not an arbitrary list. -/
theorem jsSplitF_join (sep : List Char) (hsep : sep ≠ []) :
    ∀ (fuel : Nat) (l : List Char), l.length < fuel →
      joinSep sep (jsSplitF sep fuel l) = l := by
  intro fuel
  induction fuel with
  | zero => intro l h; exact absurd h (Nat.not_lt_zero _)
  | succ n ih =>
    intro l h
    match l with
    | [] => rfl
    | c :: rest =>
      rw [jsSplitF]
      by_cases hpre : sep.isPrefixOf (c :: rest) = true
      · rw [if_pos hpre]
        rcases hrec : jsSplitF sep n (List.drop (sep.length - 1) rest) with _ | ⟨r, rs⟩
        · exact absurd hrec (jsSplitF_ne_nil sep n _)
        · have hdlen : (List.drop (sep.length - 1) rest).length < n := by
            have := List.length_drop (sep.length - 1) rest
            simp only [List.length_cons] at h
            omega
          have hj := ih (List.drop (sep.length - 1) rest) hdlen
          rw [hrec] at hj
          have hd : sep ++ List.drop (sep.length - 1) rest = c :: rest := by
            have hp := List.isPrefixOf_iff_prefix.mp hpre
            obtain ⟨t, ht⟩ := hp
            have hdrop : List.drop (sep.length - 1) rest = List.drop sep.length (c :: rest) := by
              match sep, hsep with
              | s0 :: stail, _ => simp
            rw [hdrop, ← ht, List.drop_left]
          calc joinSep sep ([] :: r :: rs) = sep ++ joinSep sep (r :: rs) := by
                simp [joinSep]
            _ = sep ++ List.drop (sep.length - 1) rest := by rw [hj]
            _ = c :: rest := hd
      · rw [if_neg hpre]
        have hlen : rest.length < n := by
          simp only [List.length_cons] at h
          omega
        have hj := ih rest hlen
        rcases hrec : jsSplitF sep n rest with _ | ⟨r, rs⟩
        · exact absurd hrec (jsSplitF_ne_nil sep n rest)
        · rw [hrec] at hj
          rw [joinSep_cons_head, hj]

/-- Helper: no part produced by the split contains an occurrence of
the separator — parts are genuine separator-delimited segments. -/
theorem jsSplitF_parts_sep_free (sep : List Char) (hsep : sep ≠ []) :
    ∀ (fuel : Nat) (l : List Char), l.length < fuel →
      ∀ p ∈ jsSplitF sep fuel l, ¬ sep <:+: p := by
  intro fuel
  induction fuel with
  | zero => intro l h; exact absurd h (Nat.not_lt_zero _)
  | succ n ih =>
    intro l h p hp hocc
    match l with
    | [] =>
      rw [show jsSplitF sep (n + 1) [] = [[]] from rfl] at hp
      rcases List.mem_singleton.mp hp with hp
      subst hp
      exact hsep (List.eq_nil_of_infix_nil hocc)
    | c :: rest =>
      rw [jsSplitF] at hp
      by_cases hpre : sep.isPrefixOf (c :: rest) = true
      · rw [if_pos hpre] at hp
        rcases List.mem_cons.mp hp with hp | hp
        · subst hp
          exact hsep (List.eq_nil_of_infix_nil hocc)
        · have hdlen : (List.drop (sep.length - 1) rest).length < n := by
            have := List.length_drop (sep.length - 1) rest
            simp only [List.length_cons] at h
            omega
          exact ih (List.drop (sep.length - 1) rest) hdlen p hp hocc
      · rw [if_neg hpre] at hp
        have hlen : rest.length < n := by
          simp only [List.length_cons] at h
          omega
        rcases hrec : jsSplitF sep n rest with _ | ⟨r, rs⟩
        · exact absurd hrec (jsSplitF_ne_nil sep n rest)
        · rw [hrec] at hp
          rcases List.mem_cons.mp hp with hp | hp
          · subst hp
            obtain ⟨t, u, htu⟩ := hocc
            match t, htu with
            | [], htu =>
              apply hpre
              rw [List.isPrefixOf_iff_prefix]
              have hrpre : r <+: rest := by
                have := jsSplitF_headSegment sep n rest hlen
                rw [hrec] at this
                simpa using this
              have hsp : sep <+: c :: r := ⟨u, by simpa using htu⟩
              exact hsp.trans (List.cons_prefix_cons.mpr ⟨rfl, hrpre⟩)
            | c2 :: t2, htu =>
              have hin : sep <:+: r := by
                have h2 : t2 ++ sep ++ u = r := by
                  simp only [List.cons_append, List.cons.injEq] at htu
                  exact htu.2
                exact ⟨t2, u, h2⟩
              exact ih rest hlen r (hrec ▸ List.mem_cons_self r rs) hin
          · exact ih rest hlen p (hrec ▸ List.mem_cons_of_mem r hp) hocc

/-- Helper: for a nonempty separator `jsSplit` is the fuelled worker
at an adequate fuel. -/
theorem jsSplit_eq (sep l : List Char) (hsep : sep ≠ []) :
    jsSplit sep l = jsSplitF sep (l.length + 1) l := by
  rw [jsSplit, if_neg hsep]

/-- Helper: rebuilding a string from its characters. -/
theorem mk_toList (s : String) : String.mk s.toList = s := by
  cases s
  rfl

/-- Helper: a nonempty string has characters. -/
theorem toList_ne_nil {s : String} (h : s ≠ "") : s.toList ≠ [] := by
  intro hl
  apply h
  cases s with
  | mk d =>
    have : d = [] := hl
    rw [this]

/-- Helper: head of a mapped nonempty list. -/
theorem headD_map_mk (l : List (List Char)) (h : l ≠ []) :
    (l.map String.mk).headD "" = String.mk (l.headD []) := by
  cases l with
  | nil => exact absurd rfl h
  | cons a t => rfl

/-- Helper: last of a mapped nonempty list, for any defaults. -/
theorem getLastD_map_mk :
    ∀ (l : List (List Char)), l ≠ [] → ∀ (d1 : String) (d2 : List Char),
      (l.map String.mk).getLastD d1 = String.mk (l.getLastD d2) := by
  intro l
  induction l with
  | nil => intro h; exact absurd rfl h
  | cons a t ih =>
    intro h d1 d2
    cases t with
    | nil => rfl
    | cons b t2 =>
      rw [List.map_cons, List.getLastD_cons, List.getLastD_cons]
      exact ih (by simp) (String.mk a) a

/-- C3 (amended): for every event string and nonempty separator, if
the separator does not occur then `parseEvent` returns `("",
event)`; if it occurs, the event decomposes into at least two
separator-free segments whose join is the event, and `parseEvent`
returns the *first* segment as the namespace — not the join of all
leading segments — and the last segment as the event name. -/
theorem parse_first_and_last_segment (event sep : String) (hsep : ¬ sep = "") :
    (¬ sep.toList <:+: event.toList → parseEvent event sep = ("", event)) ∧
    (sep.toList <:+: event.toList →
      ∃ parts : List (List Char), 2 ≤ parts.length ∧
        event.toList = joinSep sep.toList parts ∧
        (∀ p ∈ parts, ¬ sep.toList <:+: p) ∧
        parseEvent event sep =
          (String.mk (parts.headD []), String.mk (parts.getLastD []))) := by
  have hs : sep.toList ≠ [] := toList_ne_nil hsep
  have hlen : event.toList.length < event.toList.length + 1 := Nat.lt_succ_self _
  constructor
  · intro hocc
    have hparts : jsSplit sep.toList event.toList = [event.toList] := by
      rw [jsSplit_eq _ _ hs]
      exact jsSplitF_no_occurrence sep.toList _ _ hlen hocc
    rw [parseEvent, stringSplitJs, hparts]
    simp [mk_toList]
  · intro hocc
    have h2 : 2 ≤ (jsSplit sep.toList event.toList).length := by
      rw [jsSplit_eq _ _ hs]
      exact jsSplitF_occurrence_len sep.toList hs _ _ hlen hocc
    have hne : jsSplit sep.toList event.toList ≠ [] := by
      rw [jsSplit_eq _ _ hs]
      exact jsSplitF_ne_nil sep.toList _ _
    refine ⟨jsSplit sep.toList event.toList, h2, ?_, ?_, ?_⟩
    · rw [jsSplit_eq _ _ hs]
      exact (jsSplitF_join sep.toList hs _ _ hlen).symm
    · rw [jsSplit_eq _ _ hs]
      exact fun p hp => jsSplitF_parts_sep_free sep.toList hs _ _ hlen p hp
    · rw [parseEvent, stringSplitJs]
      have hlen2 : 1 < ((jsSplit sep.toList event.toList).map String.mk).length := by
        rw [List.length_map]
        omega
      rw [if_pos hlen2]
      rw [headD_map_mk _ hne, getLastD_map_mk _ hne "" []]

/-- Witness for the amended C3: `"a.b.c"` with separator `"."`,
which contains the separator (decomposition `["a"] ++ "." ++
["b.c"]`). -/
theorem parse_first_and_last_segment_witness :
    (¬ ("." : String) = "") ∧
    (∃ parts : List (List Char), 2 ≤ parts.length ∧
      "a.b.c".toList = joinSep ".".toList parts ∧
      (∀ p ∈ parts, ¬ ".".toList <:+: p) ∧
      parseEvent "a.b.c" "." =
        (String.mk (parts.headD []), String.mk (parts.getLastD []))) :=
  ⟨by decide,
   (parse_first_and_last_segment "a.b.c" "." (by decide)).2
     ⟨['a'], ['b', '.', 'c'], by decide⟩⟩
